import Mathlib

/-! # IB-DHT (zhongcache): LRU engine, consistent-hash ring and group read path

A shallow embedding of `lru/lru.go`, `consistenthash/consistenthash.go`,
`byteview.go`, `cache.go`, `singleflight/singleflight.go`, `groupcache.go` and
the handler `ServeHTTP` of `httpserver.go`, followed by the properties proved
about them.

Conventions of the embedding.
* `int64` and `int` are `Int`. The `int64` arithmetic of `lru.go` wraps: every
  sum and difference it computes is reduced by `wrap64`. The lengths of strings
  and slices and the hashes of the ring are far below the 64-bit boundary.
* A Go `map` is an association list whose keys are kept distinct by the
  assignment and `delete` operations below; `len` of the map is the length of
  that list.
* `container/list` is a `List` of nodes, front first. Every node carries an
  identity (`id`), which is what a `*list.Element` stored in the index is.
* A call that does not return (a loop that spins forever) is `none`.
* The group, the single-flight group and the HTTP handler are run by one
  goroutine: the mutexes have no counterpart, and the calls of the interfaces
  `Getter`, `PeerPicker` and `PeerGetter` act on a state of the world and are
  recorded in the order they are made.
-/

namespace lru

/-! ## lru/lru.go -/

/-- The value of a 64-bit two's complement integer computed without regard to
overflow: the conversion `int64(x)` and the result of `+` and `-` on `int64`. -/
def wrap64 (x : Int) : Int :=
  (x + 9223372036854775808) % 18446744073709551616 - 9223372036854775808

/-- The `Value` interface: `Len() int`. An implementation may return any `int`,
negative ones and ones near the largest included. -/
class Value (V : Type) where
  Len : V → Int

/-- The type `Entry`: the payload of a list node. -/
structure Entry (V : Type) where
  key : String
  value : V
deriving DecidableEq, Repr

/-- A `*list.Element`: a node identity together with its `*Entry` payload. -/
structure Element (V : Type) where
  id : Nat
  entry : Entry V
deriving DecidableEq, Repr

/-- The struct `Cache`. `σ` is the state the eviction callback acts on (for the
tests' callback, the slice of recorded keys); `nextId` is the allocator of node
identities, the counterpart of `new(Element)`. -/
structure Cache (σ V : Type) where
  maxBytes : Int
  usedBytes : Int
  dList : List (Element V)
  cMap : List (String × Nat)
  nextId : Nat
  OnEvicted : Option (String → V → σ → σ)

/-- Map assignment `delete(m, key)`. -/
def mapDelete {β : Type} (m : List (String × β)) (key : String) : List (String × β) :=
  m.filter (fun p => p.1 != key)

/-- Map assignment `m[key] = v`: an existing binding of `key` is replaced. -/
def mapSet {β : Type} (m : List (String × β)) (key : String) (v : β) : List (String × β) :=
  (key, v) :: mapDelete m key

/-- The size of an entry as a number: `len(key) + value.Len()`. -/
def entrySize {V : Type} [Value V] (e : Entry V) : Int :=
  (e.key.utf8ByteSize : Int) + Value.Len e.value

/-- The bytes an entry is charged: `int64(len(kv.key)) + int64(kv.value.Len())`,
an `int64` sum. -/
def entryBytes {V : Type} [Value V] (e : Entry V) : Int :=
  wrap64 ((e.key.utf8ByteSize : Int) + wrap64 (Value.Len e.value))

/-- The node of the list with identity `i`, if it is in the list. -/
def elemOf {V : Type} (l : List (Element V)) (i : Nat) : Option (Element V) :=
  l.find? (fun e => e.id == i)

/-- The call `list.MoveToBack(ele)`: a node of the list is unlinked and relinked at the
back; for a node that is not in the list nothing happens. -/
def MoveToBack {V : Type} (l : List (Element V)) (i : Nat) : List (Element V) :=
  match elemOf l i with
  | some e => l.eraseP (fun x => x.id == i) ++ [e]
  | none => l

/-- The constructor `New`. -/
def New {σ V : Type} (maxBytes : Int) (onEvicted : Option (String → V → σ → σ)) : Cache σ V :=
  { maxBytes := maxBytes, usedBytes := 0, dList := [], cMap := [], nextId := 0,
    OnEvicted := onEvicted }

/-- The method `Cache.Get`. The result `some v` is `(v, true)` and `none` is `(nil, false)`.
The index only ever points at nodes of the list (see `Inv`); the embedding keeps
no detached nodes, so for a pointer with no node it reports a miss. -/
def Get {σ V : Type} (c : Cache σ V) (key : String) : Option V × Cache σ V :=
  match c.cMap.lookup key with
  | some i =>
    match elemOf c.dList i with
    | some ele => (some ele.entry.value, { c with dList := MoveToBack c.dList i })
    | none => (none, c)
  | none => (none, c)

/-- The method `Cache.RemoveLRU`: unlink the front node, delete its key from the index,
give its bytes back, then call `OnEvicted` when it is set. -/
def RemoveLRU {σ V : Type} [Value V] (c : Cache σ V) (s : σ) : Cache σ V × σ :=
  match c.dList with
  | [] => (c, s)
  | ele :: rest =>
    let c1 : Cache σ V :=
      { c with dList := rest
               cMap := mapDelete c.cMap ele.entry.key
               usedBytes := wrap64 (c.usedBytes - entryBytes ele.entry) }
    match c.OnEvicted with
    | some f => (c1, f ele.entry.key ele.entry.value s)
    | none => (c1, s)

/-- The first statement of `Cache.Add`, the `if ... else` that stores the value:
a resident key has its node moved to the back, its bytes adjusted and its value
overwritten; a new key gets a fresh node at the back and an index entry. -/
def addEntry {σ V : Type} [Value V] (c : Cache σ V) (key : String) (val : V) : Cache σ V :=
  match c.cMap.lookup key with
  | some i =>
    match elemOf c.dList i with
    | some ele =>
      { c with dList := c.dList.eraseP (fun x => x.id == i) ++
                          [{ ele with entry := { ele.entry with value := val } }]
               usedBytes := wrap64 (c.usedBytes +
                 wrap64 (wrap64 (Value.Len val) - wrap64 (Value.Len ele.entry.value))) }
    | none => c
  | none =>
    { c with dList := c.dList ++ [{ id := c.nextId, entry := { key := key, value := val } }]
             cMap := mapSet c.cMap key c.nextId
             nextId := c.nextId + 1
             usedBytes := wrap64 (c.usedBytes +
               wrap64 ((key.utf8ByteSize : Int) + wrap64 (Value.Len val))) }

/-- The loop `for c.maxBytes != 0 && c.usedBytes > c.maxBytes { c.RemoveLRU() }`,
unrolled `fuel` times; `none` when the condition still holds after that. -/
def evictLoop {σ V : Type} [Value V] : Nat → Cache σ V → σ → Option (Cache σ V × σ)
  | 0, _, _ => none
  | fuel + 1, c, s =>
    if c.maxBytes ≠ 0 ∧ c.usedBytes > c.maxBytes then
      evictLoop fuel (RemoveLRU c s).1 (RemoveLRU c s).2
    else some (c, s)

/-- The method `Cache.Add`. Each iteration of the loop that changes anything removes a node,
so one more iteration than there are nodes decides the loop: it has either
ended, or it has reached the empty list with the condition still true, where
`RemoveLRU` changes nothing and the loop never ends (`evictLoop_none_forever`).
`none` is that second case. -/
def Add {σ V : Type} [Value V] (c : Cache σ V) (key : String) (val : V) (s : σ) :
    Option (Cache σ V × σ) :=
  evictLoop ((addEntry c key val).dList.length + 1) (addEntry c key val) s

/-- The state after `j` calls of `RemoveLRU` in a row, as the loop of `Add` makes
them. -/
def removeFront {σ V : Type} [Value V] : Nat → Cache σ V → σ → Cache σ V × σ
  | 0, c, s => (c, s)
  | j + 1, c, s => removeFront j (RemoveLRU c s).1 (RemoveLRU c s).2

/-- The method `Cache.Len`. -/
def Len {σ V : Type} (c : Cache σ V) : Nat := c.dList.length

/-- The tests' value type `String`, with `Len` the `len` of the string. -/
instance : Value String where
  Len := fun d => (d.utf8ByteSize : Int)

/-- A value that reports a size of its own choosing: an implementation of `Value`
whose `Len()` returns the field `size`. -/
structure Sized where
  size : Int
deriving DecidableEq, Repr

instance : Value Sized where
  Len := fun d => d.size

/-- A call of one of the three mutating methods of `Cache`. -/
inductive Op (V : Type) where
  | add (key : String) (val : V)
  | get (key : String)
  | removeLRU

/-- One call on a cache, with the callback state threaded through. -/
def step {σ V : Type} [Value V] (cs : Cache σ V × σ) (op : Op V) : Option (Cache σ V × σ) :=
  match op with
  | Op.add key val => Add cs.1 key val cs.2
  | Op.get key => some ((Get cs.1 key).2, cs.2)
  | Op.removeLRU => some (RemoveLRU cs.1 cs.2)

/-- A sequence of calls, first to last. -/
def run {σ V : Type} [Value V] (ops : List (Op V)) (c : Cache σ V) (s : σ) :
    Option (Cache σ V × σ) :=
  ops.foldlM step (c, s)

/-- The callback of `TestOnEvicted`: `keys = append(keys, key)`. -/
def recordKey {V : Type} : String → V → List String → List String :=
  fun key _ keys => keys ++ [key]

/-- The sum of the sizes `len(key) + value.Len()` of the nodes of a list, as a
number. -/
def listBytes {V : Type} [Value V] (l : List (Element V)) : Int :=
  (l.map (fun e => entrySize e.entry)).sum

/-- The pair an index entry for a node consists of: its key and its identity. -/
def indexPair {V : Type} (e : Element V) : String × Nat := (e.entry.key, e.id)

/-- The representation invariant of `Cache`: the index holds exactly one entry
per node, pointing at it under the node's own key; keys and node identities are
not repeated; identities handed out so far are below `nextId`; and `usedBytes`
is the `int64` value of the sum of the sizes of the nodes. -/
structure Inv {σ V : Type} [Value V] (c : Cache σ V) : Prop where
  index : c.cMap.Perm (c.dList.map indexPair)
  keys : (c.dList.map (fun e => e.entry.key)).Nodup
  ids : (c.dList.map (fun e => e.id)).Nodup
  fresh : ∀ e ∈ c.dList, e.id < c.nextId
  bytes : c.usedBytes = wrap64 (listBytes c.dList)

/-- The sizes of the resident entries, summed over the index: for each key the
index binds, the size of the node it points at. -/
def residentBytes {σ V : Type} [Value V] (c : Cache σ V) : Int :=
  (c.cMap.map (fun p =>
    match elemOf c.dList p.2 with
    | some e => entrySize e.entry
    | none => 0)).sum

/-- The calls of a small scenario: a resident key is added again, the other key
is read, then the oldest entry is removed. -/
def scenarioOps : List (Op String) :=
  [Op.add "key1" "value1", Op.add "key2" "v", Op.add "key1" "longervalue",
    Op.get "key2", Op.removeLRU]

/-- The state `scenarioOps` leaves an unbounded cache in. -/
def scenarioCache : Cache Unit String :=
  { maxBytes := 0, usedBytes := 5, dList := [{ id := 1, entry := { key := "key2", value := "v" } }],
    cMap := [("key2", 1)], nextId := 2, OnEvicted := none }

/-- The state of the cache of `TestOnEvicted` before its last `Add`. -/
def testCache : Cache (List String) String :=
  { maxBytes := 20, usedBytes := 20,
    dList := [{ id := 1, entry := { key := "key2", value := "value2" } },
              { id := 2, entry := { key := "key3", value := "value3" } }],
    cMap := [("key3", 2), ("key2", 1)], nextId := 3, OnEvicted := some recordKey }

/-- The state `New(10, nil)` is in after `Add("a", v)` for a value `v` whose `Len()`
is the largest `int`: the `int64` sum `1 + 9223372036854775807` has wrapped to the
least `int64`, which is not above the capacity, so nothing was evicted. -/
def hugeCache : Cache Unit Sized :=
  { maxBytes := 10, usedBytes := -9223372036854775808,
    dList := [{ id := 0, entry := { key := "a", value := { size := 9223372036854775807 } } }],
    cMap := [("a", 0)], nextId := 1, OnEvicted := none }

/-- A cache of capacity 10 that holds the single entry `"a"`: the state
`New(10, nil)` is in after `Add("a", "1234")`. -/
def soleEntryCache : Cache Unit String :=
  { maxBytes := 10, usedBytes := 5,
    dList := [{ id := 0, entry := { key := "a", value := "1234" } }],
    cMap := [("a", 0)], nextId := 1, OnEvicted := none }

/-- The state `soleEntryCache` is in after `Get("a")` and `Add("b", "1234567")`. -/
def soleEntryCacheAfter : Cache Unit String :=
  { maxBytes := 10, usedBytes := 8,
    dList := [{ id := 1, entry := { key := "b", value := "1234567" } }],
    cMap := [("b", 1)], nextId := 2, OnEvicted := none }

/-- The value of the last `Add` under `key` in a sequence of calls, if any. -/
def lastAdded {V : Type} (ops : List (Op V)) (key : String) : Option V :=
  ops.foldl (fun acc op =>
    match op with
    | Op.add k v => if k = key then some v else acc
    | _ => acc) none

/-- A cache of capacity 14 that holds `"a"`, `"b"` and `"c"`, added in that order. -/
def recencyCache : Cache Unit String :=
  { maxBytes := 14, usedBytes := 12,
    dList := [{ id := 0, entry := { key := "a", value := "123" } },
              { id := 1, entry := { key := "b", value := "123" } },
              { id := 2, entry := { key := "c", value := "123" } }],
    cMap := [("c", 2), ("b", 1), ("a", 0)], nextId := 3, OnEvicted := none }

/-- The state `recencyCache` is in after `Get("a")` and `Add("d", "12345")`. -/
def recencyCacheAfter : Cache Unit String :=
  { maxBytes := 14, usedBytes := 14,
    dList := [{ id := 2, entry := { key := "c", value := "123" } },
              { id := 0, entry := { key := "a", value := "123" } },
              { id := 3, entry := { key := "d", value := "12345" } }],
    cMap := [("d", 3), ("c", 2), ("a", 0)], nextId := 4, OnEvicted := none }

/-- The call of `OnEvicted` for a node, when the callback is set. -/
def fire {σ V : Type} (cb : Option (String → V → σ → σ)) (e : Element V) (s : σ) : σ :=
  match cb with
  | some f => f e.entry.key e.entry.value s
  | none => s

end lru

namespace consistenthash

/-! ## consistenthash/consistenthash.go -/

/-- The type `Hash`, `func(data []byte) uint32`. A byte slice made from a string
is that string; the result is read modulo `2^32` where the function is called
(`hashInt`). -/
abbrev Hash := String → Nat

/-- The struct `Map`. -/
structure Map where
  hash : Hash
  replicas : Int
  keys : List Int
  hashMap : List (Int × String)

/-- One byte of the CRC-32 of package `hash/crc32` (IEEE polynomial, reflected). -/
def crcByte (crc : Nat) (b : Nat) : Nat :=
  (List.range 8).foldl (fun c _ => if c % 2 = 1 then (c / 2) ^^^ 0xEDB88320 else c / 2)
    (crc ^^^ b)

/-- The default hash `crc32.ChecksumIEEE` of the standard library. -/
def ChecksumIEEE : Hash := fun data =>
  (data.toUTF8.toList.foldl (fun c b => crcByte c b.toNat) 0xFFFFFFFF) ^^^ 0xFFFFFFFF

/-- The constructor `New`: a `nil` hash function is replaced by `crc32.ChecksumIEEE`. -/
def New (rpl : Int) (fx : Option Hash) : Map :=
  { hash := match fx with
            | some f => f
            | none => ChecksumIEEE
    replicas := rpl
    keys := []
    hashMap := [] }

/-- The expression `int(m.hash([]byte(data)))`: a `uint32` converted to `int`. -/
def hashInt (m : Map) (data : String) : Int :=
  ((m.hash data % 4294967296 : Nat) : Int)

/-- Map assignment `m.hashMap[hash] = key`: an existing binding is replaced. -/
def setPeer (hm : List (Int × String)) (hash : Int) (key : String) : List (Int × String) :=
  (hash, key) :: hm.filter (fun p => p.1 != hash)

/-- Map read `m.hashMap[hash]`: the zero value `""` for a hash that is not bound. -/
def peerOf (hm : List (Int × String)) (hash : Int) : String :=
  (hm.lookup hash).getD ""

/-- The body of the inner loop of `Map.Add` for replica `i` of peer `key`. -/
def addReplica (key : String) (m : Map) (i : Nat) : Map :=
  { m with keys := m.keys ++ [hashInt m (toString i ++ key)]
           hashMap := setPeer m.hashMap (hashInt m (toString i ++ key)) key }

/-- The inner loop of `Map.Add`: `for i := 0; i < m.replicas; i++`. -/
def addPeer (m : Map) (key : String) : Map :=
  (List.range m.replicas.toNat).foldl (addReplica key) m

/-- The call `sort.Ints`: the ascending rearrangement of the slice. -/
def sortInts (l : List Int) : List Int :=
  l.insertionSort (fun a b => a ≤ b)

/-- The call `Map.Add(keys ...string)`. -/
def Add (m : Map) (keys : List String) : Map :=
  { keys.foldl addPeer m with keys := sortInts (keys.foldl addPeer m).keys }

/-- The loop of `sort.Search`, on the interval `[i, j)`, unrolled `fuel` times;
`none` when the interval is not yet empty after that. -/
def searchLoop (f : Nat → Bool) : Nat → Nat → Nat → Option Nat
  | 0, i, j => if i < j then none else some i
  | fuel + 1, i, j =>
    if i < j then
      if !f ((i + j) / 2) then searchLoop f fuel ((i + j) / 2 + 1) j
      else searchLoop f fuel i ((i + j) / 2)
    else some i

/-- The call `sort.Search(n, f)`: binary search for the least index in `[0, n)` at
which `f` holds, `n` if there is none. Every iteration shrinks the interval, so
`n` iterations are enough (`Search_isSome`). -/
def Search (n : Nat) (f : Nat → Bool) : Option Nat :=
  searchLoop f n 0 n

/-- The method `Map.Get`. `none` would be a binary search that did not finish, which does not
happen (`Search_isSome`). The index expression `m.keys[i]` is only evaluated
for `i` below `len(m.keys)`. -/
def Get (m : Map) (key : String) : Option String :=
  if m.keys.length = 0 then some ""
  else
    (Search m.keys.length (fun i => decide (m.keys.getD i 0 ≥ hashInt m key))).map
      (fun idx => peerOf m.hashMap (m.keys.getD (idx % m.keys.length) 0))

/-- The reference definition of the owner of a key, in the words of the
specification: the empty string if the ring has no hashes; otherwise the peer
`hashMap` associates with the smallest ring hash that is at least the hash of the
key or, when no ring hash is that large, with the smallest ring hash overall. -/
def GetRef (m : Map) (key : String) : String :=
  if m.keys = [] then ""
  else
    match (m.keys.filter (fun x => decide (x ≥ hashInt m key))).min? with
    | some x => peerOf m.hashMap x
    | none =>
      match m.keys.min? with
      | some x => peerOf m.hashMap x
      | none => ""

/-- The ring hash that owns the hash `h`: the smallest one that is at least `h`,
or the smallest one overall when none is that large. -/
def succPoint (l : List Int) (h : Int) : Option Int :=
  match (l.filter (fun x => decide (x ≥ h))).min? with
  | some x => some x
  | none => l.min?

/-- The hashes of the virtual nodes of a peer: `hash(strconv.Itoa(i) + key)` for
`i` from `0` up to `replicas`. -/
def vnodes (m : Map) (key : String) : List Int :=
  (List.range m.replicas.toNat).map (fun i => hashInt m (toString i ++ key))

/-- The slice of ring hashes and the key set of `hashMap` have the same elements,
and `hashMap` binds no hash twice. -/
def KeysMatch (m : Map) : Prop :=
  (∀ x, x ∈ m.keys ↔ x ∈ m.hashMap.map Prod.fst) ∧ (m.hashMap.map Prod.fst).Nodup

/-- The ring `m` holds the virtual nodes of the peers `S`, under the hash function
and the replica count of `m0`: the slice of hashes consists of the hashes of
their virtual nodes, and every binding of `hashMap` sends the hash of a virtual
node of a peer of `S` to that peer. -/
def RingOf (m0 : Map) (S : List String) (m : Map) : Prop :=
  m.hash = m0.hash ∧ m.replicas = m0.replicas ∧
  (∀ x, x ∈ m.keys ↔ ∃ p ∈ S, x ∈ vnodes m0 p) ∧
  (∀ x q, m.hashMap.lookup x = some q → q ∈ S ∧ x ∈ vnodes m0 q)

/-- The ring after a sequence of `Add` calls on `New(rpl, fx)`. -/
def ring (rpl : Int) (fx : Option Hash) (adds : List (List String)) : Map :=
  adds.foldl Add (New rpl fx)

/-- The value of a string of decimal digits; `none` for any other string. -/
def digitsValue (cs : List Char) : Option Nat :=
  if cs = [] then none
  else cs.foldl (fun acc ch =>
    match acc with
    | some n => if ch.isDigit then some (10 * n + (ch.toNat - 48)) else none
    | none => none) (some 0)

/-- The call `strconv.Atoi` with its error dropped, as the hash of `TestHashing`
uses it: an optional sign and decimal digits; `0` for anything else; and for a
number outside `int` the nearest `int`, as `strconv.ParseInt` returns it with its
range error. -/
def atoi (s : String) : Int :=
  match s.data with
  | '-' :: cs => match digitsValue cs with
                 | some n => if (n : Int) > 9223372036854775808 then -9223372036854775808
                             else -(n : Int)
                 | none => 0
  | '+' :: cs => match digitsValue cs with
                 | some n => if (n : Int) > 9223372036854775807 then 9223372036854775807
                             else (n : Int)
                 | none => 0
  | cs => match digitsValue cs with
          | some n => if (n : Int) > 9223372036854775807 then 9223372036854775807
                      else (n : Int)
          | none => 0

/-- The hash function of `TestHashing`: `uint32(i)` for `i, _ := strconv.Atoi(string(key))`. -/
def testHash : Hash := fun key => (atoi key % 4294967296).toNat

/-- The ring of `TestHashing`: `New(3, testHash)` after `Add("6", "4", "2")`. -/
def testRing : Map := ring 3 (some testHash) [["6", "4", "2"]]

end consistenthash

namespace singleflight

/-! ## singleflight/singleflight.go -/

/-- The struct `call`: the result slots of a request in flight (the wait group is
a matter of scheduling and has no counterpart here). -/
structure call (α : Type) where
  val : Option α
  err : Option String

/-- The struct `Group`: the map of requests in flight, `nil` until the first `Do`. -/
structure Group (α : Type) where
  m : Option (List (String × call α))

/-- The method `Group.Do`, run by one goroutine. `fx` acts on the state `σ` of its closure and
returns the pair `(value, error)`. When the map already holds a call for `key`,
`Do` waits for that call to finish; nothing else runs here that could finish
it, so that case, like an `fx` that does not return, is `none`. -/
def Do {α σ : Type} (g : Group α) (key : String)
    (fx : σ → Option ((α × Option String) × σ)) (s : σ) :
    Option ((α × Option String) × Group α × σ) :=
  match (match g.m with
         | some m => m
         | none => []).lookup key with
  | some _ => none
  | none =>
    match fx s with
    | none => none
    | some (r, s2) =>
      some (r,
        { m := some (lru.mapDelete
            (lru.mapSet (match g.m with
                         | some m => m
                         | none => []) key { val := none, err := none }) key) },
        s2)

/-- The calls in flight: the entries of the map, none for the `nil` map. -/
def inFlight {α : Type} (g : Group α) : List (String × call α) :=
  match g.m with
  | some m => m
  | none => []

end singleflight

namespace zhongcache

/-! ## byteview.go, cache.go, peers.go, groupcache.go -/

/-- The struct `ByteView`. -/
structure ByteView where
  b : List UInt8
deriving DecidableEq

/-- The method `ByteView.Len`. -/
def ByteView.Len (v : ByteView) : Int := (v.b.length : Int)

instance : lru.Value ByteView where
  Len := ByteView.Len

/-- The function `cloneBytes`: a copy of the slice, which as a value is the slice itself. -/
def cloneBytes (b : List UInt8) : List UInt8 := b

/-- The method `ByteView.ByteSlice`. -/
def ByteView.ByteSlice (v : ByteView) : List UInt8 := cloneBytes v.b

/-- The struct `cache`: the LRU engine, `nil` until the first `add`, and the
capacity it is created with. The mutex has no counterpart in a run of one
goroutine. -/
structure cache where
  lru : Option (lru.Cache Unit ByteView)
  cacheBytes : Int

/-- The method `cache.add`; `none` when `lru.Add` does not return. -/
def cache.add (c : cache) (key : String) (val : ByteView) : Option cache :=
  (lru.Add (match c.lru with
            | some l => l
            | none => lru.New c.cacheBytes none) key val ()).map
    (fun r => { c with lru := some r.1 })

/-- The method `cache.get`. -/
def cache.get (c : cache) (key : String) : Option ByteView × cache :=
  match c.lru with
  | none => (none, c)
  | some l => ((lru.Get l key).1, { c with lru := some (lru.Get l key).2 })

/-- A call of one of the interfaces the group depends on. -/
inductive Call where
  | loader (key : String)
  | pickPeer (key : String)
  | peerGet (group : String) (key : String)
deriving DecidableEq, Repr

/-- What lies outside the group: the state `world` the implementations of the
interfaces act on, and the record `calls` of the interface calls made so far. -/
structure Env (ω : Type) where
  world : ω
  calls : List Call

/-- The interface `PeerGetter`: `Get(group, key) ([]byte, error)`. -/
structure PeerGetter (ω : Type) where
  Get : String → String → ω → (List UInt8 × Option String) × ω

/-- The interface `PeerPicker`: `PickPeer(key) (peer PeerGetter, ok bool)`. -/
structure PeerPicker (ω : Type) where
  PickPeer : String → ω → Option (PeerGetter ω) × ω

/-- The interface `Getter`: `Get(key) ([]byte, error)`. -/
structure Getter (ω : Type) where
  Get : String → ω → (List UInt8 × Option String) × ω

/-- The struct `Group`. -/
structure Group (ω : Type) where
  name : String
  getter : Getter ω
  mainCache : cache
  peers : Option (PeerPicker ω)
  loader : singleflight.Group ByteView

/-- The function `NewGroup`, on the registry `groups`; a `nil` getter panics. -/
def NewGroup {ω : Type} (groups : List (String × Group ω)) (name : String) (cacheBytes : Int)
    (getter : Option (Getter ω)) : Except String (Group ω × List (String × Group ω)) :=
  match getter with
  | none => Except.error "nil Getter"
  | some gt =>
    Except.ok ({ name := name, getter := gt, mainCache := { lru := none, cacheBytes := cacheBytes },
                 peers := none, loader := { m := none } },
      lru.mapSet groups name
        { name := name, getter := gt, mainCache := { lru := none, cacheBytes := cacheBytes },
          peers := none, loader := { m := none } })

/-- The function `GetGroup`: `nil` for a name that is not registered. -/
def GetGroup {ω : Type} (groups : List (String × Group ω)) (name : String) : Option (Group ω) :=
  groups.lookup name

/-- The method `Group.RegisterPeers`; a second registration panics. -/
def Group.RegisterPeers {ω : Type} (g : Group ω) (peers : Option (PeerPicker ω)) :
    Except String (Group ω) :=
  if g.peers.isSome then Except.error "RegisterPeerPicker called more than once"
  else Except.ok { g with peers := peers }

/-- The method `Group.getFromPeer`. -/
def Group.getFromPeer {ω : Type} (g : Group ω) (peer : PeerGetter ω) (key : String) (env : Env ω) :
    (ByteView × Option String) × Env ω :=
  match (peer.Get g.name key env.world).1.2 with
  | some err =>
    (({ b := [] }, some err),
      { world := (peer.Get g.name key env.world).2,
        calls := env.calls ++ [Call.peerGet g.name key] })
  | none =>
    (({ b := (peer.Get g.name key env.world).1.1 }, none),
      { world := (peer.Get g.name key env.world).2,
        calls := env.calls ++ [Call.peerGet g.name key] })

/-- The method `Group.populateCache`, acting on the cache of the group. -/
def Group.populateCache (mainCache : cache) (key : String) (val : ByteView) : Option cache :=
  mainCache.add key val

/-- The method `Group.getLocally`, acting on the cache of the group and the
environment; `none` when `populateCache` does not return. -/
def Group.getLocally {ω : Type} (g : Group ω) (key : String) (st : cache × Env ω) :
    Option ((ByteView × Option String) × cache × Env ω) :=
  match (g.getter.Get key st.2.world).1.2 with
  | some err =>
    some (({ b := [] }, some err), st.1,
      { world := (g.getter.Get key st.2.world).2, calls := st.2.calls ++ [Call.loader key] })
  | none =>
    (Group.populateCache st.1 key { b := cloneBytes (g.getter.Get key st.2.world).1.1 }).map
      (fun c2 => (({ b := cloneBytes (g.getter.Get key st.2.world).1.1 }, none), c2,
        { world := (g.getter.Get key st.2.world).2, calls := st.2.calls ++ [Call.loader key] }))

/-- The function literal `Group.load` passes to `Do`: ask the picker, when one is
registered, and the peer it selects; fall back to `getLocally`. -/
def Group.loadOnce {ω : Type} (g : Group ω) (key : String) (st : cache × Env ω) :
    Option ((ByteView × Option String) × cache × Env ω) :=
  match g.peers with
  | some peers =>
    match (peers.PickPeer key st.2.world).1 with
    | some peer =>
      match (g.getFromPeer peer key
          { world := (peers.PickPeer key st.2.world).2,
            calls := st.2.calls ++ [Call.pickPeer key] }).1.2 with
      | none =>
        some ((g.getFromPeer peer key
            { world := (peers.PickPeer key st.2.world).2,
              calls := st.2.calls ++ [Call.pickPeer key] }).1, st.1,
          (g.getFromPeer peer key
            { world := (peers.PickPeer key st.2.world).2,
              calls := st.2.calls ++ [Call.pickPeer key] }).2)
      | some _ =>
        g.getLocally key (st.1,
          (g.getFromPeer peer key
            { world := (peers.PickPeer key st.2.world).2,
              calls := st.2.calls ++ [Call.pickPeer key] }).2)
    | none =>
      g.getLocally key (st.1,
        { world := (peers.PickPeer key st.2.world).2,
          calls := st.2.calls ++ [Call.pickPeer key] })
  | none => g.getLocally key st

/-- The method `Group.load`. -/
def Group.load {ω : Type} (g : Group ω) (key : String) (env : Env ω) :
    Option ((ByteView × Option String) × Group ω × Env ω) :=
  match singleflight.Do g.loader key (g.loadOnce key) (g.mainCache, env) with
  | none => none
  | some (r, loader2, st2) =>
    match r.2 with
    | none => some ((r.1, none), { g with mainCache := st2.1, loader := loader2 }, st2.2)
    | some err =>
      some (({ b := [] }, some err), { g with mainCache := st2.1, loader := loader2 }, st2.2)

/-- The method `Group.Get`: the pair `(ByteView, error)` it returns, the group and the
environment afterwards; `none` when the call does not return. -/
def Group.Get {ω : Type} (g : Group ω) (key : String) (env : Env ω) :
    Option ((ByteView × Option String) × Group ω × Env ω) :=
  if key = "" then some (({ b := [] }, some "key if required"), g, env)
  else
    match (g.mainCache.get key).1 with
    | some v => some ((v, none), { g with mainCache := (g.mainCache.get key).2 }, env)
    | none => Group.load { g with mainCache := (g.mainCache.get key).2 } key env

/-- The pair `Group.load` returns for the pair `Do` hands it. -/
def loadResult (r : ByteView × Option String) : ByteView × Option String :=
  match r.2 with
  | none => (r.1, none)
  | some err => ({ b := [] }, some err)

/-! ## httpserver.go -/

/-- The constant `defaultBasePath`. -/
def defaultBasePath : String := "/_zhongcache/"

/-- The constant `defaultReplicas`. -/
def defaultReplicas : Int := 50

/-- The struct `httpGetter`. -/
structure httpGetter where
  baseURL : String

/-- The struct `HTTPPool`; the mutex has no counterpart in a run of one goroutine. -/
structure HTTPPool where
  self : String
  basePath : String
  peers : Option consistenthash.Map
  httpGetters : List (String × httpGetter)

/-- The function `NewHTTPPool`. -/
def NewHTTPPool (self : String) : HTTPPool :=
  { self := self, basePath := defaultBasePath, peers := none, httpGetters := [] }

/-- A call on the `http.ResponseWriter` of a request: `http.Error(w, msg, code)`,
`w.Header().Set(key, value)` or `w.Write(body)`. -/
inductive WriterCall where
  | error (msg : String) (code : Nat)
  | setHeader (key : String) (value : String)
  | write (body : List UInt8)
deriving DecidableEq, Repr

/-- What a run of `ServeHTTP` has done: its calls on the response writer, in
order; its calls of `Group.Get`, as pairs of the group name looked up and the
key; the panic it ended in, if it did; and the registry and the environment
afterwards. -/
structure Served (ω : Type) where
  writer : List WriterCall
  reads : List (String × String)
  panic : Option String
  groups : List (String × Group ω)
  env : Env ω

/-- The call `strings.SplitN(s, "/", 2)`: the part before the first `/` and the
part after it, or `s` alone when it has no `/`. -/
def splitN2 (s : List Char) : List String :=
  match s.span (fun ch => ch != '/') with
  | (a, []) => [String.mk a]
  | (a, _ :: rest) => [String.mk a, String.mk rest]

/-- The method `Group.Get` called through a `*Group` that may be `nil`, as `ServeHTTP`
calls it. On the `nil` pointer the check of the key runs as on any group, since
it does not touch the receiver; the read of `g.mainCache` that follows it is a
nil pointer dereference, a run-time panic. -/
def Group.GetPtr {ω : Type} (group : Option (Group ω)) (key : String) (env : Env ω) :
    Option (Except String ((ByteView × Option String) × Option (Group ω) × Env ω)) :=
  match group with
  | some g => (Group.Get g key env).map (fun r => Except.ok (r.1, some r.2.1, r.2.2))
  | none =>
    if key = "" then some (Except.ok (({ b := [] }, some "key if required"), none, env))
    else some (Except.error "runtime error: invalid memory address or nil pointer dereference")

/-- The method `HTTPPool.ServeHTTP`, for a request with the path `path`, on the
registry `groups`; `none` when `Group.Get` does not return. A path that holds a
prefix as a string of bytes holds it as a string of characters, and the rest
after it is the same. -/
def HTTPPool.ServeHTTP {ω : Type} (p : HTTPPool) (groups : List (String × Group ω))
    (path : String) (env : Env ω) : Option (Served ω) :=
  if p.basePath.data.isPrefixOf path.data = false then
    some { writer := [], reads := [],
           panic := some ("HTTPPool serving unexpected path: " ++ path),
           groups := groups, env := env }
  else
    match splitN2 (path.data.drop p.basePath.data.length) with
    | [groupName, key] =>
      match Group.GetPtr (GetGroup groups groupName) key env with
      | none => none
      | some (Except.error msg) =>
        some { writer := (match GetGroup groups groupName with
                          | none => [WriterCall.error ("no such group:" ++ groupName) 404]
                          | some _ => []),
               reads := [(groupName, key)], panic := some msg, groups := groups, env := env }
      | some (Except.ok (r, g2, env2)) =>
        some { writer := (match GetGroup groups groupName with
                          | none => [WriterCall.error ("no such group:" ++ groupName) 404]
                          | some _ => []) ++
                         (match r.2 with
                          | some err => [WriterCall.error err 500]
                          | none => []) ++
                         [WriterCall.setHeader "Content-Type" "application/octet-stream",
                          WriterCall.write r.1.ByteSlice],
               reads := [(groupName, key)], panic := none,
               groups := (match g2 with
                          | some g => lru.mapSet groups groupName g
                          | none => groups),
               env := env2 }
    | _ =>
      some { writer := [WriterCall.error "bad request" 400], reads := [], panic := none,
             groups := groups, env := env }

/-- The LRU engine behind a `cache`: the one it holds, or the empty one its first
`add` would create. -/
def cache.engine (c : cache) : lru.Cache Unit ByteView :=
  match c.lru with
  | some l => l
  | none => lru.New c.cacheBytes none

/-- The load of `key` in the environment `env` reaches `getLocally`, which then
runs in the environment given: no picker is registered, or the picker finds no
peer, or the peer it selects returns an error. -/
inductive Group.LoadsLocally {ω : Type} (g : Group ω) (key : String) (env : Env ω) :
    Env ω → Prop where
  | noPicker : g.peers = none → Group.LoadsLocally g key env env
  | notFound (picker : PeerPicker ω) (w1 : ω) :
      g.peers = some picker → picker.PickPeer key env.world = (none, w1) →
      Group.LoadsLocally g key env { world := w1, calls := env.calls ++ [Call.pickPeer key] }
  | peerError (picker : PeerPicker ω) (peer : PeerGetter ω) (w1 w2 : ω) (bytes : List UInt8)
      (e : String) :
      g.peers = some picker → picker.PickPeer key env.world = (some peer, w1) →
      peer.Get g.name key w1 = ((bytes, some e), w2) →
      Group.LoadsLocally g key env
        { world := w2, calls := env.calls ++ [Call.pickPeer key, Call.peerGet g.name key] }

/-- A sequence of `Get` calls on a group, first to last, their results dropped. -/
def Group.gets {ω : Type} (g : Group ω) (keys : List String) (env : Env ω) :
    Option (Group ω × Env ω) :=
  keys.foldlM (fun (st : Group ω × Env ω) key => (Group.Get st.1 key st.2).map (fun r => r.2))
    (g, env)

/-- The states of a group that `NewGroup` and `Get` calls by one goroutine lead
to, for the loader `getter` and the capacity `cacheBytes`, with no picker
registered: the cache holds a well-formed LRU engine of that capacity, no call is
in flight, and the cache holds `v` under `key` if it holds anything. -/
def Group.Settled {ω : Type} (getter : Getter ω) (cacheBytes : Int) (key : String)
    (v : ByteView) (g : Group ω) : Prop :=
  g.getter = getter ∧ g.peers = none ∧ g.mainCache.cacheBytes = cacheBytes ∧
  lru.Inv g.mainCache.engine ∧ g.mainCache.engine.maxBytes = cacheBytes ∧
  singleflight.inFlight g.loader = [] ∧
  ∀ e ∈ g.mainCache.engine.dList, e.entry.key = key → e.entry.value = v

/-! ### Sample groups -/

/-- A loader in the manner of scenario S6: the bytes of the key in upper case, and
an error for the key `"bad"`. Its world is the number of times it has run. -/
def upperGetter : Getter Nat :=
  { Get := fun key w =>
      if key = "bad" then (([], some "no such key"), w + 1)
      else ((key.data.map (fun ch => ch.toUpper.toNat.toUInt8), none), w + 1) }

/-- The group `NewGroup` makes for `upperGetter`. -/
def upperGroup (cacheBytes : Int) : Group Nat :=
  { name := "scores", getter := upperGetter,
    mainCache := { lru := none, cacheBytes := cacheBytes },
    peers := none, loader := { m := none } }

/-- A peer that answers every request with the bytes `1, 2, 3`. -/
def answeringPeer : PeerGetter Nat :=
  { Get := fun _ _ w => (([1, 2, 3], none), w) }

/-- A peer that fails every request. -/
def failingPeer : PeerGetter Nat :=
  { Get := fun _ _ w => (([], some "server returned: 500"), w) }

/-- A picker that selects `answeringPeer` for every key. -/
def answeringPicker : PeerPicker Nat :=
  { PickPeer := fun _ w => (some answeringPeer, w) }

/-- A picker that selects `failingPeer` for every key. -/
def failingPicker : PeerPicker Nat :=
  { PickPeer := fun _ w => (some failingPeer, w) }

end zhongcache

/-! # Lemmas about the embedding -/

namespace assoc

/-! ### Association lists -/

theorem lookup_eq_none_iff {α β : Type} [BEq α] [LawfulBEq α] (m : List (α × β)) (k : α) :
    m.lookup k = none ↔ k ∉ m.map Prod.fst := by
  induction m with
  | nil => simp
  | cons p m ih =>
    obtain ⟨a, b⟩ := p
    by_cases h : k = a
    · subst h; simp [List.lookup]
    · have h2 : (k == a) = false := by simpa using h
      simp [List.lookup, h2, ih, h]

theorem lookup_eq_some_of_mem {α β : Type} [BEq α] [LawfulBEq α] (m : List (α × β)) (k : α) (v : β)
    (nd : (m.map Prod.fst).Nodup) (h : (k, v) ∈ m) : m.lookup k = some v := by
  induction m with
  | nil => simp at h
  | cons p m ih =>
    obtain ⟨a, b⟩ := p
    simp only [List.map_cons, List.nodup_cons] at nd
    by_cases hk : k = a
    · subst hk
      simp only [List.mem_cons, Prod.mk.injEq, true_and] at h
      rcases h with h | h
      · subst h; simp [List.lookup]
      · exact absurd (List.mem_map_of_mem Prod.fst h) nd.1
    · have h2 : (k == a) = false := by simpa using hk
      simp only [List.mem_cons, Prod.mk.injEq] at h
      rcases h with h | h
      · exact absurd h.1 hk
      · simp [List.lookup, h2, ih nd.2 h]

theorem mem_of_lookup_eq_some {α β : Type} [BEq α] [LawfulBEq α] (m : List (α × β)) (k : α) (v : β)
    (h : m.lookup k = some v) : (k, v) ∈ m := by
  induction m with
  | nil => simp at h
  | cons p m ih =>
    obtain ⟨a, b⟩ := p
    by_cases hk : k = a
    · subst hk
      simp [List.lookup] at h
      simp [h]
    · have h2 : (k == a) = false := by simpa using hk
      simp only [List.lookup, h2] at h
      exact List.mem_cons_of_mem _ (ih h)

theorem lookup_isSome_iff {α β : Type} [BEq α] [LawfulBEq α] (m : List (α × β)) (k : α) :
    (m.lookup k).isSome = true ↔ k ∈ m.map Prod.fst := by
  rw [← not_iff_not, ← lookup_eq_none_iff]
  cases m.lookup k <;> simp

end assoc

namespace lru

open assoc

theorem mapDelete_of_not_mem {β : Type} (m : List (String × β)) (k : String)
    (h : k ∉ m.map Prod.fst) : mapDelete m k = m := by
  unfold mapDelete
  rw [List.filter_eq_self]
  intro p hp
  have : p.1 ≠ k := fun e => h (e ▸ List.mem_map_of_mem Prod.fst hp)
  simpa using this

/-! ### 64-bit arithmetic -/

theorem wrap64_of_range (x : Int) (h1 : -9223372036854775808 ≤ x)
    (h2 : x < 9223372036854775808) : wrap64 x = x := by
  unfold wrap64; omega

theorem wrap64_range (x : Int) :
    -9223372036854775808 ≤ wrap64 x ∧ wrap64 x < 9223372036854775808 := by
  unfold wrap64; omega

theorem wrap64_zero : wrap64 0 = 0 := by decide

/-- Adding a node's charge to the running total, in `int64`. -/
theorem wrap64_charge (t k v : Int) :
    wrap64 (wrap64 t + wrap64 (k + wrap64 v)) = wrap64 (t + (k + v)) := by
  unfold wrap64; omega

/-- Taking a node's charge off the running total, in `int64`. -/
theorem wrap64_refund (t k v : Int) :
    wrap64 (wrap64 ((k + v) + t) - wrap64 (k + wrap64 v)) = wrap64 t := by
  unfold wrap64; omega

/-- Replacing a value's length in the running total, in `int64`. -/
theorem wrap64_adjust (t k v w : Int) :
    wrap64 (wrap64 (t + (k + w)) + wrap64 (wrap64 v - wrap64 w)) = wrap64 (t + (k + v)) := by
  unfold wrap64; omega

/-! ### Nodes of the list -/

theorem elemOf_split {V : Type} (l : List (Element V)) (i : Nat) (e : Element V)
    (h : elemOf l i = some e) :
    e.id = i ∧ ∃ l₁ l₂, l = l₁ ++ e :: l₂ ∧ (∀ b ∈ l₁, b.id ≠ i) ∧
      l.eraseP (fun x => x.id == i) = l₁ ++ l₂ := by
  induction l with
  | nil => simp [elemOf] at h
  | cons a l ih =>
    by_cases ha : a.id = i
    · have hb : (a.id == i) = true := by simpa using ha
      simp only [elemOf, List.find?, hb, Option.some.injEq] at h
      subst h
      exact ⟨ha, [], l, rfl, by simp, by simp [List.eraseP, hb]⟩
    · have hb : (a.id == i) = false := by simpa using ha
      simp only [elemOf, List.find?, hb] at h
      obtain ⟨h1, l₁, l₂, h2, h3, h4⟩ := ih h
      refine ⟨h1, a :: l₁, l₂, by simp [h2], ?_, ?_⟩
      · intro b hb2
        rcases List.mem_cons.1 hb2 with rfl | hb2
        · exact ha
        · exact h3 b hb2
      · simp [List.eraseP, hb, h4]

theorem elemOf_of_mem {V : Type} (l : List (Element V)) (e : Element V)
    (nd : (l.map (fun x => x.id)).Nodup) (h : e ∈ l) : elemOf l e.id = some e := by
  induction l with
  | nil => simp at h
  | cons a l ih =>
    simp only [List.map_cons, List.nodup_cons] at nd
    rcases List.mem_cons.1 h with rfl | h
    · simp [elemOf, List.find?]
    · have ha : a.id ≠ e.id := fun e2 => nd.1 (e2 ▸ List.mem_map_of_mem (fun x => x.id) h)
      have hb : (a.id == e.id) = false := by simpa using ha
      simp only [elemOf, List.find?, hb]
      exact ih nd.2 h

/-! ### The invariant is kept by every method -/

theorem listBytes_perm {V : Type} [Value V] {l l2 : List (Element V)} (h : l.Perm l2) :
    listBytes l = listBytes l2 :=
  (h.map _).sum_eq

theorem listBytes_append {V : Type} [Value V] (l l2 : List (Element V)) :
    listBytes (l ++ l2) = listBytes l + listBytes l2 := by
  simp [listBytes]

theorem Inv_New {σ V : Type} [Value V] (maxBytes : Int) (cb : Option (String → V → σ → σ)) :
    Inv (New maxBytes cb) :=
  ⟨by simp [New], by simp [New], by simp [New], by simp [New],
    by simp [New, listBytes, wrap64_zero]⟩

/-- Reordering the nodes keeps the invariant. -/
theorem Inv_of_perm {σ V : Type} [Value V] {c : Cache σ V} (h : Inv c) (l : List (Element V))
    (hp : l.Perm c.dList) : Inv { c with dList := l } :=
  ⟨h.index.trans (hp.map _).symm, (hp.map _).nodup_iff.2 h.keys, (hp.map _).nodup_iff.2 h.ids,
    fun e he => h.fresh e (hp.subset he),
    h.bytes.trans (congrArg wrap64 (listBytes_perm hp).symm)⟩

/-- Under the invariant the index is a function of the list: a key is bound to
`i` exactly when a node with that key and identity `i` is in the list. -/
theorem Inv.lookup_some {σ V : Type} [Value V] {c : Cache σ V} (h : Inv c) (k : String) (i : Nat) :
    c.cMap.lookup k = some i ↔ ∃ e ∈ c.dList, e.entry.key = k ∧ e.id = i := by
  have nd : (c.cMap.map Prod.fst).Nodup := by
    have := (h.index.map Prod.fst).nodup_iff.2
    apply this
    simpa [indexPair, Function.comp_def] using h.keys
  constructor
  · intro hl
    have := h.index.subset (mem_of_lookup_eq_some _ _ _ hl)
    obtain ⟨e, he, hee⟩ := List.mem_map.1 this
    simp only [indexPair, Prod.mk.injEq] at hee
    exact ⟨e, he, hee.1, hee.2⟩
  · rintro ⟨e, he, rfl, rfl⟩
    exact lookup_eq_some_of_mem _ _ _ nd (h.index.symm.subset (List.mem_map_of_mem indexPair he))

theorem Inv.lookup_none {σ V : Type} [Value V] {c : Cache σ V} (h : Inv c) (k : String) :
    c.cMap.lookup k = none ↔ k ∉ c.dList.map (fun e => e.entry.key) := by
  rw [lookup_eq_none_iff]
  have := (h.index.map Prod.fst).mem_iff (a := k)
  simp only [List.map_map] at this
  rw [this]
  simp [indexPair, Function.comp_def]

/-- Under the invariant a bound key has its node in the list. -/
theorem Inv.elemOf_lookup {σ V : Type} [Value V] {c : Cache σ V} (h : Inv c) (k : String) (i : Nat)
    (hl : c.cMap.lookup k = some i) :
    ∃ e, elemOf c.dList i = some e ∧ e.entry.key = k ∧ e ∈ c.dList := by
  obtain ⟨e, he, hk, hi⟩ := (h.lookup_some k i).1 hl
  exact ⟨e, hi ▸ elemOf_of_mem _ _ h.ids he, hk, he⟩

theorem perm_of_split {V : Type} (l₁ l₂ : List (Element V)) (e : Element V) :
    (l₁ ++ l₂ ++ [e]).Perm (l₁ ++ e :: l₂) := by
  rw [List.append_assoc]
  exact List.Perm.append_left l₁ (List.perm_append_singleton e l₂)

theorem Inv_Get {σ V : Type} [Value V] {c : Cache σ V} (h : Inv c) (key : String) :
    Inv (Get c key).2 := by
  cases hl : c.cMap.lookup key with
  | none => simpa only [Get, hl] using h
  | some i =>
    cases he : elemOf c.dList i with
    | none => simpa only [Get, hl, he] using h
    | some e =>
      obtain ⟨_, l₁, l₂, h2, _, h4⟩ := elemOf_split _ _ _ he
      simp only [Get, hl, he, MoveToBack, h4]
      apply Inv_of_perm h
      rw [h2]
      exact perm_of_split l₁ l₂ e

/-- What `RemoveLRU` does to a cache whose list is not empty. -/
theorem RemoveLRU_cons {σ V : Type} [Value V] (c : Cache σ V) (s : σ) (ele : Element V)
    (rest : List (Element V)) (hd : c.dList = ele :: rest) :
    (RemoveLRU c s).1 = { c with dList := rest, cMap := mapDelete c.cMap ele.entry.key,
                                 usedBytes := wrap64 (c.usedBytes - entryBytes ele.entry) } ∧
    (RemoveLRU c s).2 = (match c.OnEvicted with
      | some f => f ele.entry.key ele.entry.value s
      | none => s) := by
  simp only [RemoveLRU, hd]
  cases c.OnEvicted <;> simp

theorem RemoveLRU_nil {σ V : Type} [Value V] (c : Cache σ V) (s : σ) (hd : c.dList = []) :
    RemoveLRU c s = (c, s) := by
  simp only [RemoveLRU, hd]

theorem Inv_RemoveLRU {σ V : Type} [Value V] {c : Cache σ V} (h : Inv c) (s : σ) :
    Inv (RemoveLRU c s).1 := by
  cases hd : c.dList with
  | nil => rw [RemoveLRU_nil c s hd]; exact h
  | cons ele rest =>
    rw [(RemoveLRU_cons c s ele rest hd).1]
    have hk := h.keys
    have hi := h.ids
    have hx := h.index
    have hb := h.bytes
    have hf := h.fresh
    rw [hd] at hk hi hx hb hf
    simp only [List.map_cons, List.nodup_cons] at hk hi
    refine ⟨?_, hk.2, hi.2, fun e he => hf e (List.mem_cons_of_mem _ he), ?_⟩
    · have h1 := hx.filter (fun p => p.1 != ele.entry.key)
      refine h1.trans ?_
      simp only [List.map_cons, indexPair]
      rw [List.filter_cons_of_neg (by simp), List.filter_eq_self.2]
      intro p hp
      obtain ⟨e, he, rfl⟩ := List.mem_map.1 hp
      have : e.entry.key ≠ ele.entry.key :=
        fun e2 => hk.1 (e2 ▸ List.mem_map_of_mem (fun x => x.entry.key) he)
      simpa using this
    · simp only [hb, listBytes, List.map_cons, List.sum_cons, entrySize, entryBytes]
      exact wrap64_refund _ _ _

/-- What `addEntry` does for a key the index binds to a node of the list. -/
theorem addEntry_hit {σ V : Type} [Value V] (c : Cache σ V) (key : String) (val : V) (i : Nat)
    (ele : Element V) (hl : c.cMap.lookup key = some i) (he : elemOf c.dList i = some ele) :
    addEntry c key val =
      { c with dList := c.dList.eraseP (fun x => x.id == i) ++
                          [{ ele with entry := { ele.entry with value := val } }],
               usedBytes := wrap64 (c.usedBytes +
                 wrap64 (wrap64 (Value.Len val) - wrap64 (Value.Len ele.entry.value))) } := by
  simp only [addEntry, hl, he]

/-- What `addEntry` does for a key the index does not bind. -/
theorem addEntry_miss {σ V : Type} [Value V] (c : Cache σ V) (key : String) (val : V)
    (hl : c.cMap.lookup key = none) :
    addEntry c key val =
      { c with dList := c.dList ++ [{ id := c.nextId, entry := { key := key, value := val } }],
               cMap := mapSet c.cMap key c.nextId,
               nextId := c.nextId + 1,
               usedBytes := wrap64 (c.usedBytes +
                 wrap64 ((key.utf8ByteSize : Int) + wrap64 (Value.Len val))) } := by
  simp only [addEntry, hl]

theorem Inv_addEntry {σ V : Type} [Value V] {c : Cache σ V} (h : Inv c) (key : String) (val : V) :
    Inv (addEntry c key val) := by
  cases hl : c.cMap.lookup key with
  | none =>
    rw [addEntry_miss c key val hl]
    have hnot := (h.lookup_none key).1 hl
    have hnot2 : key ∉ c.cMap.map Prod.fst := (lookup_eq_none_iff _ _).1 hl
    refine ⟨?_, ?_, ?_, ?_, ?_⟩
    · simp only [mapSet, mapDelete_of_not_mem _ _ hnot2, List.map_append, List.map_cons,
        List.map_nil, indexPair]
      exact (List.Perm.cons _ h.index).trans (List.perm_append_singleton _ _).symm
    · simp only [List.map_append, List.map_cons, List.map_nil]
      exact (List.perm_append_singleton _ _).nodup_iff.2 (List.nodup_cons.2 ⟨hnot, h.keys⟩)
    · simp only [List.map_append, List.map_cons, List.map_nil]
      refine (List.perm_append_singleton _ _).nodup_iff.2 (List.nodup_cons.2 ⟨?_, h.ids⟩)
      intro hm
      obtain ⟨e, he, hee⟩ := List.mem_map.1 hm
      have := h.fresh e he
      omega
    · intro e he
      rcases List.mem_append.1 he with he | he
      · have := h.fresh e he
        show e.id < c.nextId + 1
        omega
      · simp only [List.mem_singleton] at he
        subst he
        show c.nextId < c.nextId + 1
        omega
    · simp only [listBytes_append, h.bytes]
      simp only [listBytes, entrySize, List.map_cons, List.map_nil, List.sum_cons, List.sum_nil,
        add_zero]
      exact wrap64_charge _ _ _
  | some i =>
    obtain ⟨ele, he, _, _⟩ := h.elemOf_lookup key i hl
    rw [addEntry_hit c key val i ele hl he]
    obtain ⟨_, l₁, l₂, h2, _, h4⟩ := elemOf_split _ _ _ he
    have hp : (l₁ ++ l₂ ++ [ele]).Perm c.dList := h2 ▸ perm_of_split l₁ l₂ ele
    have h5 := Inv_of_perm h _ hp
    simp only [h4]
    refine ⟨?_, ?_, ?_, ?_, ?_⟩
    · simpa [indexPair] using h5.index
    · simpa using h5.keys
    · simpa using h5.ids
    · intro e hm
      rcases List.mem_append.1 hm with hm | hm
      · exact h5.fresh e (List.mem_append_left _ hm)
      · simp only [List.mem_singleton] at hm
        subst hm
        exact h5.fresh ele (by simp)
    · have hb : c.usedBytes = wrap64 (listBytes (l₁ ++ l₂) + listBytes [ele]) := by
        rw [← listBytes_append]; exact h5.bytes
      simp only [listBytes_append, hb]
      simp only [listBytes, entrySize, List.map_cons, List.map_nil, List.sum_cons, List.sum_nil,
        add_zero]
      exact wrap64_adjust _ _ _ _

/-! ### The eviction loop -/

/-- More fuel does not change a result the loop has reached. -/
theorem evictLoop_fuel_mono {σ V : Type} [Value V] (n k : Nat) :
    ∀ (c : Cache σ V) (s : σ) (r : Cache σ V × σ),
      evictLoop n c s = some r → evictLoop (n + k) c s = some r := by
  induction n with
  | zero => intro c s r h; simp [evictLoop] at h
  | succ n ih =>
    intro c s r h
    rw [show n + 1 + k = (n + k) + 1 by omega]
    simp only [evictLoop] at h ⊢
    split
    · rename_i hc
      rw [if_pos hc] at h
      exact ih _ _ _ h
    · rename_i hc
      rw [if_neg hc] at h
      exact h

/-- Running out of the fuel `Add` gives the loop means the loop never ends. -/
theorem evictLoop_none_forever {σ V : Type} [Value V] (m : Nat) :
    ∀ (c : Cache σ V) (s : σ), c.dList.length < m → evictLoop m c s = none →
      ∀ n, evictLoop n c s = none := by
  induction m with
  | zero => intro c s h; omega
  | succ m ih =>
    intro c s hlen h n
    simp only [evictLoop] at h
    by_cases hc : c.maxBytes ≠ 0 ∧ c.usedBytes > c.maxBytes
    · rw [if_pos hc] at h
      cases hd : c.dList with
      | nil =>
        induction n with
        | zero => rfl
        | succ n ihn =>
          simp only [evictLoop, if_pos hc, RemoveLRU_nil c s hd]
          exact ihn
      | cons ele rest =>
        cases n with
        | zero => rfl
        | succ n =>
          simp only [evictLoop, if_pos hc]
          refine ih _ _ ?_ h n
          rw [(RemoveLRU_cons c s ele rest hd).1]
          rw [hd] at hlen
          simp only [List.length_cons] at hlen
          show rest.length < m
          omega
    · rw [if_neg hc] at h
      cases h

/-- What a finished run of the loop has done: it removed the first `k` nodes,
one per iteration, calling `OnEvicted` for each in that order; `usedBytes`
exceeded the capacity before each removal and does not at the end. -/
theorem evictLoop_some {σ V : Type} [Value V] (n : Nat) :
    ∀ (c : Cache σ V) (s : σ) (c2 : Cache σ V) (s2 : σ), Inv c →
      evictLoop n c s = some (c2, s2) →
      ∃ k, k ≤ c.dList.length ∧ c2.dList = c.dList.drop k ∧
        c2.usedBytes = wrap64 (listBytes (c.dList.drop k)) ∧
        c2.maxBytes = c.maxBytes ∧ c2.OnEvicted = c.OnEvicted ∧ c2.nextId = c.nextId ∧
        s2 = (c.dList.take k).foldl (fun t e => fire c.OnEvicted e t) s ∧
        ¬ (c.maxBytes ≠ 0 ∧ c2.usedBytes > c.maxBytes) ∧
        (∀ j, j < k → c.maxBytes ≠ 0 ∧ wrap64 (listBytes (c.dList.drop j)) > c.maxBytes) ∧
        Inv c2 := by
  induction n with
  | zero => intro c s c2 s2 _ h; simp [evictLoop] at h
  | succ n ih =>
    intro c s c2 s2 hi h
    simp only [evictLoop] at h
    by_cases hc : c.maxBytes ≠ 0 ∧ c.usedBytes > c.maxBytes
    · rw [if_pos hc] at h
      cases hd : c.dList with
      | nil =>
        rw [RemoveLRU_nil c s hd] at h
        have := ih c s c2 s2 hi h
        rwa [hd] at this
      | cons ele rest =>
        obtain ⟨e1, e2⟩ := RemoveLRU_cons c s ele rest hd
        obtain ⟨k, hk, h1, h2, h3, h4, h5, h6, h7, h8, h9⟩ :=
          ih _ _ c2 s2 (Inv_RemoveLRU hi s) h
        rw [e1] at hk h1 h2 h3 h4 h5 h6 h7 h8
        simp only at hk h1 h2 h3 h4 h5 h6 h7 h8
        refine ⟨k + 1, by simp only [List.length_cons]; omega, by simpa using h1,
          by simpa using h2, h3, h4, h5, ?_, h7, ?_, h9⟩
        · rw [h6, e2]
          simp only [List.take_succ_cons, List.foldl_cons, fire]
        · intro j hj
          cases j with
          | zero =>
            refine ⟨hc.1, ?_⟩
            have hb := hi.bytes
            rw [hd] at hb
            simp only [List.drop_zero]
            rw [← hb]
            exact hc.2
          | succ j => simpa using h8 j (by omega)
    · rw [if_neg hc] at h
      simp only [Option.some.injEq, Prod.mk.injEq] at h
      obtain ⟨rfl, rfl⟩ := h
      exact ⟨0, by omega, by simp, by simpa using hi.bytes, rfl, rfl, rfl, by simp, hc,
        fun j hj => by omega, hi⟩

/-- With a capacity that is not negative the loop ends: it stops at the latest
on the empty list, where `usedBytes` is `0`. -/
theorem evictLoop_terminates {σ V : Type} [Value V] (n : Nat) :
    ∀ (c : Cache σ V) (s : σ), Inv c → 0 ≤ c.maxBytes → c.dList.length < n →
      ∃ r, evictLoop n c s = some r := by
  induction n with
  | zero => intro c s _ _ h; omega
  | succ n ih =>
    intro c s hi hm hlen
    simp only [evictLoop]
    by_cases hc : c.maxBytes ≠ 0 ∧ c.usedBytes > c.maxBytes
    · rw [if_pos hc]
      cases hd : c.dList with
      | nil =>
        have hb := hi.bytes
        rw [hd] at hb
        simp only [listBytes, List.map_nil, List.sum_nil, wrap64_zero] at hb
        omega
      | cons ele rest =>
        have h2 := Inv_RemoveLRU hi s
        obtain ⟨e1, _⟩ := RemoveLRU_cons c s ele rest hd
        apply ih _ _ h2
        · rw [e1]; exact hm
        · rw [e1]
          rw [hd] at hlen
          simp only [List.length_cons] at hlen
          show rest.length < n
          omega
    · rw [if_neg hc]
      exact ⟨_, rfl⟩

/-! ### Sequences of calls -/

theorem Add_some {σ V : Type} [Value V] {c : Cache σ V} (hi : Inv c) (hm : 0 ≤ c.maxBytes)
    (key : String) (val : V) (s : σ) : ∃ r, Add c key val s = some r := by
  have h1 := Inv_addEntry hi key val
  have h2 : (addEntry c key val).maxBytes = c.maxBytes := by
    unfold addEntry
    split
    · split <;> rfl
    · rfl
  exact evictLoop_terminates _ _ s h1 (h2 ▸ hm) (by omega)

theorem addEntry_frame {σ V : Type} [Value V] (c : Cache σ V) (key : String) (val : V) :
    (addEntry c key val).maxBytes = c.maxBytes ∧
    (addEntry c key val).OnEvicted = c.OnEvicted := by
  unfold addEntry
  split
  · split <;> exact ⟨rfl, rfl⟩
  · exact ⟨rfl, rfl⟩

/-- A call of `Add` that returns keeps the invariant, the capacity and the
callback, and leaves `usedBytes` within a non-zero capacity. -/
theorem Inv_Add {σ V : Type} [Value V] {c : Cache σ V} (hi : Inv c) (key : String) (val : V)
    (s : σ) (c2 : Cache σ V) (s2 : σ) (h : Add c key val s = some (c2, s2)) :
    Inv c2 ∧ c2.maxBytes = c.maxBytes ∧ c2.OnEvicted = c.OnEvicted ∧
      ¬ (c.maxBytes ≠ 0 ∧ c2.usedBytes > c.maxBytes) := by
  obtain ⟨k, _, _, _, h3, h4, _, _, h7, _, h9⟩ :=
    evictLoop_some _ _ _ _ _ (Inv_addEntry hi key val) h
  obtain ⟨f1, f2⟩ := addEntry_frame c key val
  exact ⟨h9, h3.trans f1, h4.trans f2, f1 ▸ h7⟩

theorem Get_frame {σ V : Type} (c : Cache σ V) (key : String) :
    (Get c key).2.maxBytes = c.maxBytes ∧ (Get c key).2.OnEvicted = c.OnEvicted ∧
    (Get c key).2.usedBytes = c.usedBytes ∧ (Get c key).2.cMap = c.cMap := by
  unfold Get
  split
  · split <;> exact ⟨rfl, rfl, rfl, rfl⟩
  · exact ⟨rfl, rfl, rfl, rfl⟩

theorem RemoveLRU_frame {σ V : Type} [Value V] (c : Cache σ V) (s : σ) :
    (RemoveLRU c s).1.maxBytes = c.maxBytes ∧ (RemoveLRU c s).1.OnEvicted = c.OnEvicted := by
  cases hd : c.dList with
  | nil => rw [RemoveLRU_nil c s hd]; exact ⟨rfl, rfl⟩
  | cons ele rest => rw [(RemoveLRU_cons c s ele rest hd).1]; exact ⟨rfl, rfl⟩

theorem Inv_step {σ V : Type} [Value V] {c : Cache σ V} (hi : Inv c) (s : σ) (op : Op V)
    (c2 : Cache σ V) (s2 : σ) (h : step (c, s) op = some (c2, s2)) :
    Inv c2 ∧ c2.maxBytes = c.maxBytes ∧ c2.OnEvicted = c.OnEvicted := by
  cases op with
  | add key val =>
    obtain ⟨h1, h2, h3, _⟩ := Inv_Add hi key val s c2 s2 h
    exact ⟨h1, h2, h3⟩
  | get key =>
    simp only [step, Option.some.injEq, Prod.mk.injEq] at h
    obtain ⟨rfl, rfl⟩ := h
    exact ⟨Inv_Get hi key, (Get_frame c key).1, (Get_frame c key).2.1⟩
  | removeLRU =>
    simp only [step, Option.some.injEq] at h
    have e1 : (RemoveLRU c s).1 = c2 := by rw [h]
    subst e1
    exact ⟨Inv_RemoveLRU hi s, RemoveLRU_frame c s⟩

theorem step_some {σ V : Type} [Value V] {c : Cache σ V} (hi : Inv c) (hm : 0 ≤ c.maxBytes)
    (s : σ) (op : Op V) : ∃ r, step (c, s) op = some r := by
  cases op with
  | add key val => exact Add_some hi hm key val s
  | get key => exact ⟨_, rfl⟩
  | removeLRU => exact ⟨_, rfl⟩

theorem run_snoc {σ V : Type} [Value V] (ops : List (Op V)) (op : Op V) (c : Cache σ V) (s : σ) :
    run (ops ++ [op]) c s = (run ops c s).bind (fun cs => step cs op) := by
  simp only [run, List.foldlM_append, List.foldlM_cons, List.foldlM_nil]
  cases List.foldlM step (c, s) ops with
  | none => rfl
  | some r =>
    show (step r op).bind pure = step r op
    cases step r op <;> rfl

/-- Every state a sequence of calls reaches keeps the invariant. -/
theorem Inv_run {σ V : Type} [Value V] (ops : List (Op V)) :
    ∀ (c : Cache σ V) (s : σ) (c2 : Cache σ V) (s2 : σ), Inv c → run ops c s = some (c2, s2) →
      Inv c2 ∧ c2.maxBytes = c.maxBytes ∧ c2.OnEvicted = c.OnEvicted := by
  induction ops using List.reverseRecOn with
  | nil =>
    intro c s c2 s2 hi h
    simp only [run, List.foldlM_nil, pure, Option.some.injEq, Prod.mk.injEq] at h
    obtain ⟨rfl, rfl⟩ := h
    exact ⟨hi, rfl, rfl⟩
  | append_singleton ops op ih =>
    intro c s c2 s2 hi h
    rw [run_snoc] at h
    cases hr : run ops c s with
    | none => rw [hr] at h; simp at h
    | some r =>
      obtain ⟨c1, s1⟩ := r
      rw [hr] at h
      simp only [Option.bind] at h
      obtain ⟨h1, h2, h3⟩ := ih c s c1 s1 hi hr
      obtain ⟨h4, h5, h6⟩ := Inv_step h1 s1 op c2 s2 h
      exact ⟨h4, h5.trans h2, h6.trans h3⟩

/-- With a capacity that is not negative every sequence of calls returns. -/
theorem run_some {σ V : Type} [Value V] (ops : List (Op V)) :
    ∀ (c : Cache σ V) (s : σ), Inv c → 0 ≤ c.maxBytes → ∃ r, run ops c s = some r := by
  induction ops using List.reverseRecOn with
  | nil => intro c s _ _; exact ⟨_, rfl⟩
  | append_singleton ops op ih =>
    intro c s hi hm
    obtain ⟨⟨c1, s1⟩, hr⟩ := ih c s hi hm
    obtain ⟨h1, h2, _⟩ := Inv_run ops c s c1 s1 hi hr
    rw [run_snoc, hr]
    exact step_some h1 (h2 ▸ hm) s1 op

/-- With values of non-negative length the sizes sum to a non-negative number. -/
theorem listBytes_nonneg {V : Type} [Value V] (hlen : ∀ v : V, 0 ≤ Value.Len v)
    (l : List (Element V)) : 0 ≤ listBytes l := by
  induction l with
  | nil => simp [listBytes]
  | cons a l ih =>
    have := hlen a.entry.value
    simp only [listBytes, List.map_cons, List.sum_cons, entrySize] at ih ⊢
    omega

/-- With values of non-negative length the nodes left after some are dropped
from the front sum to no more than all of them. -/
theorem listBytes_drop_le {V : Type} [Value V] (hlen : ∀ v : V, 0 ≤ Value.Len v)
    (l : List (Element V)) (k : Nat) : listBytes (l.drop k) ≤ listBytes l := by
  have h1 := listBytes_append (l.take k) (l.drop k)
  rw [List.take_append_drop] at h1
  have h2 := listBytes_nonneg hlen (l.take k)
  omega

/-- Under the invariant the sum over the index is the sum over the list. -/
theorem Inv.residentBytes_eq {σ V : Type} [Value V] {c : Cache σ V} (h : Inv c) :
    residentBytes c = listBytes c.dList := by
  unfold residentBytes listBytes
  rw [(h.index.map _).sum_eq, List.map_map]
  congr 1
  apply List.map_congr_left
  intro e he
  simp only [Function.comp, indexPair, elemOf_of_mem _ _ h.ids he]

/-! ### What `Add` does to the list -/

theorem filter_key_split {V : Type} (l₁ l₂ : List (Element V)) (ele : Element V)
    (nd : ((l₁ ++ ele :: l₂).map (fun e => e.entry.key)).Nodup) :
    (l₁ ++ ele :: l₂).filter (fun x => x.entry.key != ele.entry.key) = l₁ ++ l₂ := by
  simp only [List.map_append, List.map_cons] at nd
  have h1 := (List.nodup_append.1 nd).2.2
  have h2 := (List.nodup_cons.1 (List.nodup_append.1 nd).2.1).1
  rw [List.filter_append, List.filter_cons_of_neg (by simp), List.filter_eq_self.2,
    List.filter_eq_self.2]
  · intro a ha
    have : a.entry.key ≠ ele.entry.key :=
      fun e2 => h2 (e2 ▸ List.mem_map_of_mem (fun x => x.entry.key) ha)
    simpa using this
  · intro a ha
    have : a.entry.key ≠ ele.entry.key := by
      intro e2
      exact h1 (List.mem_map_of_mem (fun x => x.entry.key) ha) (e2 ▸ List.mem_cons_self _ _)
    simpa using this

/-- The list after the first statement of `Add`: the other nodes in their old
order, then the node of `key`, holding `val`. -/
theorem Inv.addEntry_dList {σ V : Type} [Value V] {c : Cache σ V} (h : Inv c) (key : String)
    (val : V) :
    ∃ e : Element V, e.entry = { key := key, value := val } ∧
      (addEntry c key val).dList = c.dList.filter (fun x => x.entry.key != key) ++ [e] := by
  cases hl : c.cMap.lookup key with
  | none =>
    rw [addEntry_miss c key val hl]
    refine ⟨{ id := c.nextId, entry := { key := key, value := val } }, rfl, ?_⟩
    have hnot := (h.lookup_none key).1 hl
    rw [List.filter_eq_self.2]
    intro a ha
    have : a.entry.key ≠ key := fun e2 => hnot (e2 ▸ List.mem_map_of_mem (fun x => x.entry.key) ha)
    simpa using this
  | some i =>
    obtain ⟨ele, he, hk, _⟩ := h.elemOf_lookup key i hl
    rw [addEntry_hit c key val i ele hl he]
    obtain ⟨_, l₁, l₂, h2, _, h4⟩ := elemOf_split _ _ _ he
    have hent : ({ key := ele.entry.key, value := val } : Entry V) =
        { key := key, value := val } := by rw [hk]
    refine ⟨{ ele with entry := { ele.entry with value := val } }, hent, ?_⟩
    have hn := h.keys
    rw [h2] at hn
    simp only [h4]
    rw [h2, ← hk, filter_key_split l₁ l₂ ele hn]

/-- The full account of a call of `Add` that returns, on a cache that satisfies
the invariant. -/
theorem Add_result {σ V : Type} [Value V] {c : Cache σ V} (hi : Inv c)
    (key : String) (val : V) (s : σ) (c2 : Cache σ V) (s2 : σ)
    (ha : Add c key val s = some (c2, s2)) :
    ∃ k, Inv c2 ∧
      c2.maxBytes = c.maxBytes ∧ c2.OnEvicted = c.OnEvicted ∧
      k ≤ (addEntry c key val).dList.length ∧
      c2.dList = (addEntry c key val).dList.drop k ∧
      c2.usedBytes = wrap64 (listBytes ((addEntry c key val).dList.drop k)) ∧
      ¬ (c.maxBytes ≠ 0 ∧ c2.usedBytes > c.maxBytes) ∧
      (∀ j, j < k → c.maxBytes ≠ 0 ∧
        wrap64 (listBytes ((addEntry c key val).dList.drop j)) > c.maxBytes) ∧
      s2 = ((addEntry c key val).dList.take k).foldl (fun t e => fire c.OnEvicted e t) s := by
  obtain ⟨k, h0, h1, h2, h3, h4, _, h6, h7, h8, h9⟩ :=
    evictLoop_some _ _ _ _ _ (Inv_addEntry hi key val) ha
  obtain ⟨f1, f2⟩ := addEntry_frame c key val
  exact ⟨k, h9, h3.trans f1, h4.trans f2, h0, h1, h2, f1 ▸ h7, fun j hj => f1 ▸ h8 j hj,
    f2 ▸ h6⟩

/-- With a capacity that is not negative `Add` returns, with that account. -/
theorem Add_spec {σ V : Type} [Value V] {c : Cache σ V} (hi : Inv c) (hm : 0 ≤ c.maxBytes)
    (key : String) (val : V) (s : σ) :
    ∃ k c2 s2, Add c key val s = some (c2, s2) ∧ Inv c2 ∧
      c2.maxBytes = c.maxBytes ∧ c2.OnEvicted = c.OnEvicted ∧
      k ≤ (addEntry c key val).dList.length ∧
      c2.dList = (addEntry c key val).dList.drop k ∧
      c2.usedBytes = wrap64 (listBytes ((addEntry c key val).dList.drop k)) ∧
      ¬ (c.maxBytes ≠ 0 ∧ c2.usedBytes > c.maxBytes) ∧
      (∀ j, j < k → c.maxBytes ≠ 0 ∧
        wrap64 (listBytes ((addEntry c key val).dList.drop j)) > c.maxBytes) ∧
      s2 = ((addEntry c key val).dList.take k).foldl (fun t e => fire c.OnEvicted e t) s := by
  obtain ⟨⟨c2, s2⟩, ha⟩ := Add_some hi hm key val s
  obtain ⟨k, h⟩ := Add_result hi key val s c2 s2 ha
  exact ⟨k, c2, s2, ha, h⟩

/-! ### What `Get` does -/

/-- A hit: the node of the key goes to the back, the others keep their order. -/
theorem Inv.Get_resident {σ V : Type} [Value V] {c : Cache σ V} (h : Inv c) (key : String)
    (e : Element V) (he : e ∈ c.dList) (hk : e.entry.key = key) :
    Get c key = (some e.entry.value,
      { c with dList := c.dList.filter (fun x => x.entry.key != key) ++ [e] }) := by
  have hl : c.cMap.lookup key = some e.id := (h.lookup_some _ _).2 ⟨e, he, hk, rfl⟩
  have hf : elemOf c.dList e.id = some e := elemOf_of_mem _ _ h.ids he
  obtain ⟨_, l₁, l₂, h2, _, h4⟩ := elemOf_split _ _ _ hf
  have hn := h.keys
  rw [h2] at hn
  simp only [Get, hl, hf, MoveToBack, h4]
  rw [h2, ← hk, filter_key_split l₁ l₂ e hn]

/-- A miss: nothing changes. -/
theorem Inv.Get_absent {σ V : Type} [Value V] {c : Cache σ V} (h : Inv c) (key : String)
    (hn : key ∉ c.dList.map (fun e => e.entry.key)) : Get c key = (none, c) := by
  have hl := (h.lookup_none key).2 hn
  simp only [Get, hl]

/-- A hit or a miss according to whether the key is in the list. -/
theorem Inv.Get_cases {σ V : Type} [Value V] {c : Cache σ V} (h : Inv c) (key : String) :
    (∃ e ∈ c.dList, e.entry.key = key ∧ Get c key = (some e.entry.value,
      { c with dList := c.dList.filter (fun x => x.entry.key != key) ++ [e] })) ∨
    (key ∉ c.dList.map (fun e => e.entry.key) ∧ Get c key = (none, c)) := by
  by_cases hn : key ∈ c.dList.map (fun e => e.entry.key)
  · obtain ⟨e, he, hk⟩ := List.mem_map.1 hn
    exact Or.inl ⟨e, he, hk, h.Get_resident key e he hk⟩
  · exact Or.inr ⟨hn, h.Get_absent key hn⟩

theorem Get_perm {σ V : Type} (c : Cache σ V) (key : String) :
    (Get c key).2.dList.Perm c.dList := by
  cases hl : c.cMap.lookup key with
  | none => simp only [Get, hl]; exact List.Perm.refl _
  | some i =>
    cases he : elemOf c.dList i with
    | none => simp only [Get, hl, he]; exact List.Perm.refl _
    | some e =>
      obtain ⟨_, l₁, l₂, h2, _, h4⟩ := elemOf_split _ _ _ he
      simp only [Get, hl, he, MoveToBack, h4]
      rw [h2]
      exact perm_of_split l₁ l₂ e

/-! ### The values held are the values last added -/

theorem lastAdded_snoc {V : Type} (ops : List (Op V)) (op : Op V) (key : String) :
    lastAdded (ops ++ [op]) key =
      match op with
      | Op.add k v => if k = key then some v else lastAdded ops key
      | _ => lastAdded ops key := by
  simp only [lastAdded, List.foldl_append, List.foldl_cons, List.foldl_nil]

/-- Where the nodes of the list come from after one call: a node was there
before, under a key other than the one just added, or it holds what was just
added. -/
theorem step_entries {σ V : Type} [Value V] {c : Cache σ V} (hi : Inv c) (s : σ) (op : Op V)
    (c2 : Cache σ V) (s2 : σ) (h : step (c, s) op = some (c2, s2)) :
    ∀ e ∈ c2.dList, (e ∈ c.dList ∧ ∀ k v, op = Op.add k v → e.entry.key ≠ k) ∨
      op = Op.add e.entry.key e.entry.value := by
  intro e he
  cases op with
  | add key val =>
    obtain ⟨k, _, _, _, _, hd, _⟩ := Add_result hi key val s c2 s2 h
    obtain ⟨placed, hp, hl⟩ := hi.addEntry_dList key val
    rw [hd, hl] at he
    rcases List.mem_append.1 (List.mem_of_mem_drop he) with hm | hm
    · left
      obtain ⟨h1, h2⟩ := List.mem_filter.1 hm
      refine ⟨h1, ?_⟩
      intro k2 v2 heq
      cases heq
      simpa using h2
    · right
      rw [List.mem_singleton.1 hm, hp]
  | get key =>
    left
    simp only [step, Option.some.injEq, Prod.mk.injEq] at h
    rw [← h.1] at he
    exact ⟨(Get_perm c key).subset he, fun k v heq => by cases heq⟩
  | removeLRU =>
    left
    simp only [step, Option.some.injEq] at h
    have e1 : (RemoveLRU c s).1 = c2 := by rw [h]
    refine ⟨?_, fun k v heq => by cases heq⟩
    rw [← e1] at he
    cases hd : c.dList with
    | nil => rw [RemoveLRU_nil c s hd, hd] at he; exact he
    | cons ele rest =>
      rw [(RemoveLRU_cons c s ele rest hd).1] at he
      exact List.mem_cons_of_mem _ he

/-- In a state reached from `New` every node holds the value last added under
its key. -/
theorem run_lastAdded {σ V : Type} [Value V] (maxBytes : Int) (cb : Option (String → V → σ → σ))
    (s0 : σ) (ops : List (Op V)) :
    ∀ (c : Cache σ V) (s : σ), run ops (New maxBytes cb) s0 = some (c, s) →
      ∀ e ∈ c.dList, lastAdded ops e.entry.key = some e.entry.value := by
  induction ops using List.reverseRecOn with
  | nil =>
    intro c s h e he
    simp only [run, List.foldlM_nil, pure, Option.some.injEq, Prod.mk.injEq] at h
    rw [← h.1] at he
    simp [New] at he
  | append_singleton ops op ih =>
    intro c2 s2 h e he
    rw [run_snoc] at h
    cases hr : run ops (New maxBytes cb) s0 with
    | none => rw [hr] at h; simp at h
    | some r =>
      obtain ⟨c1, s1⟩ := r
      rw [hr] at h
      simp only [Option.bind] at h
      obtain ⟨h1, _, _⟩ := Inv_run ops _ s0 c1 s1 (Inv_New maxBytes cb) hr
      rw [lastAdded_snoc]
      rcases step_entries h1 s1 op c2 s2 h e he with ⟨hm, hne⟩ | heq
      · have := ih c1 s1 hr e hm
        cases op with
        | add k v =>
          have hk := hne k v rfl
          simp only [if_neg (Ne.symm hk)]
          exact this
        | get k => exact this
        | removeLRU => exact this
      · rw [heq]
        simp

/-! ### An entry the capacity admits, and one it does not -/

theorem listBytes_singleton {V : Type} [Value V] (e : Element V) :
    listBytes [e] = entrySize e.entry := by
  simp [listBytes]

/-- An entry that fits the capacity on its own is resident when `Add` returns;
the other nodes left are nodes that were there before, under other keys. -/
theorem Add_keeps_added {σ V : Type} [Value V] {c : Cache σ V} (hi : Inv c)
    (hm : 0 ≤ c.maxBytes) (key : String) (val : V) (s : σ)
    (hcap : c.maxBytes = 0 ∨
      wrap64 (entrySize ({ key := key, value := val } : Entry V)) ≤ c.maxBytes) :
    ∃ (c2 : Cache σ V) (s2 : σ) (e : Element V),
      Add c key val s = some (c2, s2) ∧ Inv c2 ∧ c2.maxBytes = c.maxBytes ∧
      c2.OnEvicted = c.OnEvicted ∧ e ∈ c2.dList ∧ e.entry = { key := key, value := val } ∧
      ∀ x ∈ c2.dList, x = e ∨ (x ∈ c.dList ∧ x.entry.key ≠ key) := by
  obtain ⟨k, c2, s2, ha, hi2, h3, h4, hk, hd, _, _, hmin, _⟩ := Add_spec hi hm key val s
  obtain ⟨placed, hp, hl⟩ := hi.addEntry_dList key val
  rw [hl] at hk hd hmin
  have hkF : k ≤ (c.dList.filter (fun x => x.entry.key != key)).length := by
    by_contra hcon
    have hlt : (c.dList.filter (fun x => x.entry.key != key)).length < k := by omega
    obtain ⟨h5, h6⟩ := hmin _ hlt
    rw [List.drop_left, listBytes_singleton, hp] at h6
    rcases hcap with h0 | hle
    · exact h5 h0
    · omega
  rw [List.drop_append_of_le_length hkF] at hd
  refine ⟨c2, s2, placed, ha, hi2, h3, h4, by rw [hd]; simp, hp, ?_⟩
  intro x hx
  rw [hd] at hx
  rcases List.mem_append.1 hx with hx | hx
  · right
    obtain ⟨h7, h8⟩ := List.mem_filter.1 (List.mem_of_mem_drop hx)
    exact ⟨h7, by simpa using h8⟩
  · left
    exact List.mem_singleton.1 hx

/-- An entry that exceeds a non-zero capacity on its own takes every node with
it, when the lengths of the values are not negative and the sizes of the nodes
sum to less than `2^63`: when `Add` returns the list is empty. -/
theorem Add_oversize {σ V : Type} [Value V] {c : Cache σ V} (hi : Inv c)
    (hm : 0 < c.maxBytes) (key : String) (val : V) (s : σ)
    (hlen : ∀ v : V, 0 ≤ Value.Len v)
    (hbig : entrySize ({ key := key, value := val } : Entry V) > c.maxBytes)
    (hfit : listBytes (c.dList.filter (fun x => x.entry.key != key)) +
      entrySize ({ key := key, value := val } : Entry V) < 9223372036854775808) :
    ∃ (c2 : Cache σ V) (s2 : σ) (placed : Element V),
      Add c key val s = some (c2, s2) ∧ Inv c2 ∧ c2.maxBytes = c.maxBytes ∧
      placed.entry = { key := key, value := val } ∧ c2.dList = [] ∧
      s2 = (c.dList.filter (fun x => x.entry.key != key) ++ [placed]).foldl
        (fun t e => fire c.OnEvicted e t) s := by
  obtain ⟨k, c2, s2, ha, hi2, h3, _, hk, hd, hu, hstop, _, hs⟩ :=
    Add_spec hi (le_of_lt hm) key val s
  obtain ⟨placed, hp, hl⟩ := hi.addEntry_dList key val
  rw [hl] at hk hd hu hs
  have hkl : k = (c.dList.filter (fun x => x.entry.key != key) ++ [placed]).length := by
    by_contra hne
    have hlt : k ≤ (c.dList.filter (fun x => x.entry.key != key)).length := by
      simp only [List.length_append, List.length_singleton] at hk hne
      omega
    rw [List.drop_append_of_le_length hlt, listBytes_append, listBytes_singleton, hp] at hu
    have h1 := listBytes_nonneg hlen (List.drop k (c.dList.filter (fun x => x.entry.key != key)))
    have h2 := listBytes_drop_le hlen (c.dList.filter (fun x => x.entry.key != key)) k
    rw [wrap64_of_range _ (by omega) (by omega)] at hu
    apply hstop
    exact ⟨by omega, by omega⟩
  refine ⟨c2, s2, placed, ha, hi2, h3, hp, ?_, ?_⟩
  · rw [hd, hkl, List.drop_length]
  · rw [hs, hkl, List.take_length]

/-! ### The number of iterations of the eviction loop -/

/-- A run of the loop that ends has made exactly `k` iterations, each of which
removed a node: it ends with fuel `k + 1`, not with fuel `k`, and `k` nodes are
gone. -/
theorem evictLoop_iterations {σ V : Type} [Value V] (n : Nat) :
    ∀ (c : Cache σ V) (s : σ) (c2 : Cache σ V) (s2 : σ), evictLoop n c s = some (c2, s2) →
      ∃ k, k ≤ c.dList.length ∧ c2.dList = c.dList.drop k ∧
        evictLoop (k + 1) c s = some (c2, s2) ∧ evictLoop k c s = none := by
  induction n with
  | zero => intro c s c2 s2 h; simp [evictLoop] at h
  | succ n ih =>
    intro c s c2 s2 h
    simp only [evictLoop] at h
    by_cases hc : c.maxBytes ≠ 0 ∧ c.usedBytes > c.maxBytes
    · rw [if_pos hc] at h
      cases hd : c.dList with
      | nil =>
        rw [RemoveLRU_nil c s hd] at h
        have := ih c s c2 s2 h
        rwa [hd] at this
      | cons ele rest =>
        obtain ⟨k, hk, h1, h2, h3⟩ := ih _ _ c2 s2 h
        rw [(RemoveLRU_cons c s ele rest hd).1] at hk h1
        simp only at hk h1
        refine ⟨k + 1, by simp only [List.length_cons]; omega, by simpa using h1, ?_, ?_⟩
        · show evictLoop (k + 1 + 1) c s = _
          simp only [evictLoop, if_pos hc]
          simp only [evictLoop] at h2
          exact h2
        · simp only [evictLoop, if_pos hc]
          exact h3
    · rw [if_neg hc] at h
      simp only [Option.some.injEq, Prod.mk.injEq] at h
      obtain ⟨rfl, rfl⟩ := h
      exact ⟨0, by omega, by simp, by simp [evictLoop, hc], rfl⟩

/-- A miss of `Get`, of whatever cache, leaves the cache as it was. -/
theorem Get_none_state {σ V : Type} (c : Cache σ V) (key : String) (h : (Get c key).1 = none) :
    (Get c key).2 = c := by
  cases hk : c.cMap.lookup key with
  | none => simp only [Get, hk]
  | some i =>
    cases he : elemOf c.dList i with
    | none => simp only [Get, hk, he]
    | some e => simp [Get, hk, he] at h

/-! ### The loop of `Add` as calls of `RemoveLRU` in a row -/

theorem removeFront_frame {σ V : Type} [Value V] (j : Nat) :
    ∀ (c : Cache σ V) (s : σ), (removeFront j c s).1.maxBytes = c.maxBytes := by
  induction j with
  | zero => intro c s; rfl
  | succ j ih =>
    intro c s
    simp only [removeFront]
    rw [ih, (RemoveLRU_frame c s).1]

/-- A run of the loop that ends is `k` calls of `RemoveLRU` in a row, each made
with `usedBytes` above the capacity; `k` nodes are gone. -/
theorem evictLoop_unroll {σ V : Type} [Value V] (n : Nat) :
    ∀ (c : Cache σ V) (s : σ) (c2 : Cache σ V) (s2 : σ), evictLoop n c s = some (c2, s2) →
      ∃ k, k ≤ c.dList.length ∧ c2.dList = c.dList.drop k ∧
        removeFront k c s = (c2, s2) ∧
        ∀ j, j < k → (removeFront j c s).1.usedBytes > c.maxBytes := by
  induction n with
  | zero => intro c s c2 s2 h; simp [evictLoop] at h
  | succ n ih =>
    intro c s c2 s2 h
    simp only [evictLoop] at h
    by_cases hc : c.maxBytes ≠ 0 ∧ c.usedBytes > c.maxBytes
    · rw [if_pos hc] at h
      cases hd : c.dList with
      | nil =>
        rw [RemoveLRU_nil c s hd] at h
        have := ih c s c2 s2 h
        rwa [hd] at this
      | cons ele rest =>
        obtain ⟨k, hk, h1, h2, h3⟩ := ih _ _ c2 s2 h
        have hf := (RemoveLRU_frame c s).1
        rw [(RemoveLRU_cons c s ele rest hd).1] at hk h1
        simp only at hk h1
        refine ⟨k + 1, by simp only [List.length_cons]; omega, by simpa using h1, ?_, ?_⟩
        · simp only [removeFront]
          exact h2
        · intro j hj
          cases j with
          | zero => exact hc.2
          | succ j =>
            simp only [removeFront]
            rw [← hf]
            exact h3 j (by omega)
    · rw [if_neg hc] at h
      simp only [Option.some.injEq, Prod.mk.injEq] at h
      obtain ⟨rfl, rfl⟩ := h
      exact ⟨0, by omega, by simp, rfl, fun j hj => by omega⟩

end lru

namespace consistenthash

/-! ### Binary search -/

/-- On a predicate that, once true, stays true up to `n`, the loop of `sort.Search`
ends within `j - i` iterations at the least index at which the predicate holds. -/
theorem searchLoop_spec (f : Nat → Bool) (n : Nat)
    (mono : ∀ a b, a ≤ b → b < n → f a = true → f b = true) :
    ∀ (fuel i j : Nat), i ≤ j → j ≤ n → j - i ≤ fuel →
      (∀ k, k < i → f k = false) → (∀ k, j ≤ k → k < n → f k = true) →
      ∃ r, searchLoop f fuel i j = some r ∧ r ≤ n ∧
        (∀ k, k < r → f k = false) ∧ (∀ k, r ≤ k → k < n → f k = true) := by
  intro fuel
  induction fuel with
  | zero =>
    intro i j hij hjn hf lo hi
    have : ¬ i < j := by omega
    refine ⟨i, by simp [searchLoop, this], by omega, lo, ?_⟩
    intro k hk hkn
    exact hi k (by omega) hkn
  | succ fuel ih =>
    intro i j hij hjn hf lo hi
    by_cases hlt : i < j
    · have hmid1 : i ≤ (i + j) / 2 := by omega
      have hmid2 : (i + j) / 2 < j := by omega
      cases hfm : f ((i + j) / 2) with
      | false =>
        have := ih ((i + j) / 2 + 1) j (by omega) hjn (by omega) ?_ hi
        · simpa [searchLoop, hlt, hfm] using this
        · intro k hk
          cases hfk : f k with
          | false => rfl
          | true =>
            have := mono k ((i + j) / 2) (by omega) (by omega) hfk
            rw [hfm] at this
            cases this
      | true =>
        have := ih i ((i + j) / 2) hmid1 (by omega) (by omega) lo ?_
        · simpa [searchLoop, hlt, hfm] using this
        · intro k hk hkn
          exact mono _ k hk hkn hfm
    · refine ⟨i, by simp [searchLoop, hlt], by omega, lo, ?_⟩
      intro k hk hkn
      exact hi k (by omega) hkn

/-- The call `sort.Search` on such a predicate returns, with the least index at which the
predicate holds, or `n`. -/
theorem Search_spec (f : Nat → Bool) (n : Nat)
    (mono : ∀ a b, a ≤ b → b < n → f a = true → f b = true) :
    ∃ r, Search n f = some r ∧ r ≤ n ∧
      (∀ k, k < r → f k = false) ∧ (∀ k, r ≤ k → k < n → f k = true) :=
  searchLoop_spec f n mono n 0 n (by omega) (by omega) (by omega)
    (fun k hk => by omega) (fun k hk hkn => by omega)

/-- The binary search finishes within the iterations it is given, whatever the
predicate. -/
theorem searchLoop_isSome (f : Nat → Bool) :
    ∀ (fuel i j : Nat), j - i ≤ fuel → (searchLoop f fuel i j).isSome = true := by
  intro fuel
  induction fuel with
  | zero =>
    intro i j hf
    have : ¬ i < j := by omega
    simp [searchLoop, this]
  | succ fuel ih =>
    intro i j hf
    by_cases hlt : i < j
    · cases hfm : f ((i + j) / 2) with
      | false => simpa [searchLoop, hlt, hfm] using ih ((i + j) / 2 + 1) j (by omega)
      | true => simpa [searchLoop, hlt, hfm] using ih i ((i + j) / 2) (by omega)
    · simp [searchLoop, hlt]

theorem Search_isSome (n : Nat) (f : Nat → Bool) : (Search n f).isSome = true :=
  searchLoop_isSome f n 0 n (by omega)

/-! ### Sorted slices -/

theorem sorted_getD_mono (l : List Int) (hs : l.Sorted (fun a b => a ≤ b)) (a b : Nat)
    (hab : a ≤ b) (hb : b < l.length) : l.getD a 0 ≤ l.getD b 0 := by
  have ha : a < l.length := by omega
  rw [List.getD_eq_getElem l 0 ha, List.getD_eq_getElem l 0 hb]
  rcases Nat.lt_or_eq_of_le hab with h | h
  · exact (List.pairwise_iff_getElem.1 hs) a b ha hb h
  · subst h; exact le_refl _

theorem min?_eq_some_of_least (l : List Int) (x : Int) (hx : x ∈ l) (hle : ∀ y ∈ l, x ≤ y) :
    l.min? = some x := by
  haveI : Std.Antisymm (fun (a b : Int) => a ≤ b) := ⟨fun h1 h2 => Int.le_antisymm h1 h2⟩
  exact (List.min?_eq_some_iff Int.le_refl
    (fun a b => by rcases le_total a b with h | h <;> simp [h])
    (fun a b c => le_min_iff)).2 ⟨hx, hle⟩

/-- On a ring whose slice of hashes is in ascending order, `Get` returns, and
what it returns is the owner by the reference definition. -/
theorem Get_eq_GetRef_of_sorted (m : Map) (hs : m.keys.Sorted (fun a b => a ≤ b)) (key : String) :
    Get m key = some (GetRef m key) := by
  by_cases hnil : m.keys = []
  · simp [Get, GetRef, hnil]
  · have hlen : m.keys.length ≠ 0 := fun h => hnil (List.length_eq_zero.1 h)
    have hpos : 0 < m.keys.length := Nat.pos_of_ne_zero hlen
    obtain ⟨r, hr, hrn, lo, hi⟩ := Search_spec
      (fun i => decide (m.keys.getD i 0 ≥ hashInt m key)) m.keys.length (by
        intro a b hab hb ha
        have := sorted_getD_mono m.keys hs a b hab hb
        simp only [decide_eq_true_eq] at ha ⊢
        omega)
    simp only [Get, if_neg hlen, hr, Option.map_some', GetRef, if_neg hnil, Option.some.injEq]
    rcases Nat.lt_or_eq_of_le hrn with hlt | heq
    · have hmod : r % m.keys.length = r := Nat.mod_eq_of_lt hlt
      have hfr := hi r (le_refl _) hlt
      simp only [decide_eq_true_eq] at hfr
      have hmin : (m.keys.filter (fun x => decide (x ≥ hashInt m key))).min? =
          some (m.keys.getD r 0) := by
        apply min?_eq_some_of_least
        · rw [List.mem_filter]
          refine ⟨?_, by simpa using hfr⟩
          rw [List.getD_eq_getElem m.keys 0 hlt]
          exact List.getElem_mem _
        · intro y hy
          obtain ⟨hy1, hy2⟩ := List.mem_filter.1 hy
          obtain ⟨k, hk, rfl⟩ := List.getElem_of_mem hy1
          simp only [decide_eq_true_eq] at hy2
          have hrk : r ≤ k := by
            by_contra hcon
            have := lo k (by omega)
            simp only [decide_eq_false_iff_not, List.getD_eq_getElem m.keys 0 hk] at this
            exact this hy2
          have := sorted_getD_mono m.keys hs r k hrk hk
          rwa [List.getD_eq_getElem m.keys 0 hk] at this
      rw [hmod, hmin]
    · subst heq
      have hfil : m.keys.filter (fun x => decide (x ≥ hashInt m key)) = [] := by
        rw [List.filter_eq_nil_iff]
        intro y hy
        obtain ⟨k, hk, rfl⟩ := List.getElem_of_mem hy
        have := lo k hk
        simp only [decide_eq_false_iff_not, List.getD_eq_getElem m.keys 0 hk] at this
        simpa using this
      have hmin : m.keys.min? = some (m.keys.getD 0 0) := by
        apply min?_eq_some_of_least
        · rw [List.getD_eq_getElem m.keys 0 hpos]
          exact List.getElem_mem _
        · intro y hy
          obtain ⟨k, hk, rfl⟩ := List.getElem_of_mem hy
          have := sorted_getD_mono m.keys hs 0 k (by omega) hk
          rwa [List.getD_eq_getElem m.keys 0 hk] at this
      simp only [Nat.mod_self, hfil, List.min?_nil, hmin]

/-! ### Rings built by `Add` -/

theorem sortInts_sorted (l : List Int) : (sortInts l).Sorted (fun a b => a ≤ b) :=
  List.sorted_insertionSort _ l

theorem sortInts_perm (l : List Int) : (sortInts l).Perm l :=
  List.perm_insertionSort _ l

theorem Add_keys_sorted (m : Map) (ks : List String) :
    (Add m ks).keys.Sorted (fun a b => a ≤ b) :=
  sortInts_sorted _

theorem ring_snoc (rpl : Int) (fx : Option Hash) (adds : List (List String)) (ks : List String) :
    ring rpl fx (adds ++ [ks]) = Add (ring rpl fx adds) ks := by
  simp [ring, List.foldl_append]

/-- The slice of hashes of a ring built by `Add` calls is in ascending order. -/
theorem ring_keys_sorted (rpl : Int) (fx : Option Hash) (adds : List (List String)) :
    (ring rpl fx adds).keys.Sorted (fun a b => a ≤ b) := by
  induction adds using List.reverseRecOn with
  | nil => simp [ring, New]
  | append_singleton adds ks _ =>
    rw [ring_snoc]
    exact Add_keys_sorted _ ks

/-! ### The owning ring hash -/

theorem min?_eq_some_iff_int (l : List Int) (x : Int) :
    l.min? = some x ↔ x ∈ l ∧ ∀ y ∈ l, x ≤ y := by
  haveI : Std.Antisymm (fun (a b : Int) => a ≤ b) := ⟨fun h1 h2 => Int.le_antisymm h1 h2⟩
  exact List.min?_eq_some_iff Int.le_refl
    (fun a b => by rcases le_total a b with h | h <;> simp [h])
    (fun a b c => le_min_iff)

theorem GetRef_eq_succPoint (m : Map) (key : String) :
    GetRef m key =
      match succPoint m.keys (hashInt m key) with
      | some x => peerOf m.hashMap x
      | none => "" := by
  by_cases hnil : m.keys = []
  · simp [GetRef, succPoint, hnil]
  · simp only [GetRef, if_neg hnil, succPoint]
    cases (m.keys.filter (fun x => decide (x ≥ hashInt m key))).min? with
    | some x => rfl
    | none => cases m.keys.min? <;> rfl

/-- The owning ring hash, by membership alone. -/
theorem succPoint_eq_some_iff (l : List Int) (h x : Int) :
    succPoint l h = some x ↔
      (x ∈ l ∧ h ≤ x ∧ ∀ y ∈ l, h ≤ y → x ≤ y) ∨
      ((∀ y ∈ l, y < h) ∧ x ∈ l ∧ ∀ y ∈ l, x ≤ y) := by
  unfold succPoint
  cases hf : (l.filter (fun x => decide (x ≥ h))).min? with
  | some z =>
    obtain ⟨hz1, hz2⟩ := (min?_eq_some_iff_int _ _).1 hf
    obtain ⟨hz3, hz4⟩ := List.mem_filter.1 hz1
    simp only [decide_eq_true_eq] at hz4
    simp only [Option.some.injEq]
    constructor
    · rintro rfl
      left
      exact ⟨hz3, hz4, fun y hy hyh => hz2 y (List.mem_filter.2 ⟨hy, by simpa using hyh⟩)⟩
    · rintro (⟨h1, h2, h3⟩ | ⟨h1, _, _⟩)
      · have := h3 z hz3 hz4
        have := hz2 x (List.mem_filter.2 ⟨h1, by simpa using h2⟩)
        omega
      · have := h1 z hz3
        omega
  | none =>
    have hnil := List.min?_eq_none_iff.1 hf
    have hall : ∀ y ∈ l, y < h := by
      intro y hy
      by_contra hcon
      have : y ∈ l.filter (fun x => decide (x ≥ h)) :=
        List.mem_filter.2 ⟨hy, by simpa using (by omega : y ≥ h)⟩
      rw [hnil] at this
      cases this
    simp only [min?_eq_some_iff_int]
    constructor
    · rintro ⟨h1, h2⟩
      exact Or.inr ⟨hall, h1, h2⟩
    · rintro (⟨h1, h2, _⟩ | ⟨_, h1, h2⟩)
      · have := hall x h1
        omega
      · exact ⟨h1, h2⟩

theorem succPoint_eq_none_iff (l : List Int) (h : Int) : succPoint l h = none ↔ l = [] := by
  unfold succPoint
  cases hf : (l.filter (fun x => decide (x ≥ h))).min? with
  | some z =>
    constructor
    · intro h2; cases h2
    · intro h2
      subst h2
      simp at hf
  | none => simp

/-- Two slices with the same elements have the same owning ring hash. -/
theorem succPoint_congr (l1 l2 : List Int) (h : Int) (hmem : ∀ x, x ∈ l1 ↔ x ∈ l2) :
    succPoint l1 h = succPoint l2 h := by
  cases h2 : succPoint l2 h with
  | none =>
    rw [succPoint_eq_none_iff] at h2 ⊢
    subst h2
    exact List.eq_nil_iff_forall_not_mem.2 (fun x hx => by simpa using (hmem x).1 hx)
  | some x =>
    rw [succPoint_eq_some_iff] at h2 ⊢
    simpa only [hmem] using h2

/-! ### The map of virtual nodes -/

theorem lookup_filter_ne (hm : List (Int × String)) (h x : Int) (hx : x ≠ h) :
    (hm.filter (fun p => p.1 != h)).lookup x = hm.lookup x := by
  induction hm with
  | nil => rfl
  | cons p hm ih =>
    obtain ⟨a, b⟩ := p
    by_cases ha : a = h
    · subst ha
      have h2 : (x == a) = false := by simpa using hx
      simp [List.filter, List.lookup, h2, ih]
    · have h1 : (a != h) = true := by simpa using ha
      simp only [List.filter, h1, List.lookup]
      cases x == a
      · exact ih
      · rfl

theorem lookup_setPeer (hm : List (Int × String)) (h : Int) (k : String) (x : Int) :
    (setPeer hm h k).lookup x = if x = h then some k else hm.lookup x := by
  by_cases hx : x = h
  · subst hx; simp [setPeer, List.lookup]
  · have h2 : (x == h) = false := by simpa using hx
    simp only [setPeer, List.lookup, h2, if_neg hx]
    exact lookup_filter_ne hm h x hx

theorem mem_setPeer_keys (hm : List (Int × String)) (h : Int) (k : String) (x : Int) :
    x ∈ (setPeer hm h k).map Prod.fst ↔ x = h ∨ x ∈ hm.map Prod.fst := by
  rw [← assoc.lookup_isSome_iff, ← assoc.lookup_isSome_iff, lookup_setPeer]
  by_cases hx : x = h <;> simp [hx]

theorem setPeer_keys_nodup (hm : List (Int × String)) (h : Int) (k : String)
    (nd : (hm.map Prod.fst).Nodup) : ((setPeer hm h k).map Prod.fst).Nodup := by
  simp only [setPeer, List.map_cons, List.nodup_cons]
  constructor
  · intro hmem
    obtain ⟨p, hp, hp2⟩ := List.mem_map.1 hmem
    have := (List.mem_filter.1 hp).2
    simp only [bne_iff_ne, ne_eq] at this
    exact this hp2
  · exact (List.filter_sublist hm).map Prod.fst |>.nodup nd

/-! ### C9: the slice of hashes and the key set of `hashMap` -/

theorem KeysMatch_addReplica (key : String) (m : Map) (i : Nat) (h : KeysMatch m) :
    KeysMatch (addReplica key m i) := by
  refine ⟨?_, setPeer_keys_nodup _ _ _ h.2⟩
  intro x
  simp only [addReplica, List.mem_append, List.mem_singleton, mem_setPeer_keys, h.1 x]
  tauto

theorem KeysMatch_foldl_addReplica (key : String) (is : List Nat) :
    ∀ m, KeysMatch m → KeysMatch (is.foldl (addReplica key) m) := by
  induction is with
  | nil => intro m h; exact h
  | cons i is ih => intro m h; exact ih _ (KeysMatch_addReplica key m i h)

theorem KeysMatch_foldl_addPeer (ks : List String) :
    ∀ m, KeysMatch m → KeysMatch (ks.foldl addPeer m) := by
  induction ks with
  | nil => intro m h; exact h
  | cons k ks ih => intro m h; exact ih _ (KeysMatch_foldl_addReplica k _ m h)

theorem KeysMatch_Add (m : Map) (ks : List String) (h : KeysMatch m) : KeysMatch (Add m ks) := by
  have h2 := KeysMatch_foldl_addPeer ks m h
  refine ⟨?_, h2.2⟩
  intro x
  show x ∈ sortInts (ks.foldl addPeer m).keys ↔ _
  rw [(sortInts_perm _).mem_iff]
  exact h2.1 x

theorem KeysMatch_ring (rpl : Int) (fx : Option Hash) (adds : List (List String)) :
    KeysMatch (ring rpl fx adds) := by
  induction adds using List.reverseRecOn with
  | nil => simp [ring, New, KeysMatch]
  | append_singleton adds ks ih =>
    rw [ring_snoc]
    exact KeysMatch_Add _ ks ih

/-! ### What `Add` does to the ring -/

theorem hashInt_congr (m1 m2 : Map) (h : m1.hash = m2.hash) (data : String) :
    hashInt m1 data = hashInt m2 data := by
  simp only [hashInt, h]

/-- The inner loop of `Add` over the replica numbers `is`: the hashes of those
virtual nodes are appended to the slice and are bound to the peer; every other
binding is kept. -/
theorem foldl_addReplica (key : String) (is : List Nat) :
    ∀ m : Map, (is.foldl (addReplica key) m).hash = m.hash ∧
      (is.foldl (addReplica key) m).replicas = m.replicas ∧
      (is.foldl (addReplica key) m).keys =
        m.keys ++ is.map (fun i => hashInt m (toString i ++ key)) ∧
      ∀ x, (is.foldl (addReplica key) m).hashMap.lookup x =
        if x ∈ is.map (fun i => hashInt m (toString i ++ key)) then some key
        else m.hashMap.lookup x := by
  induction is with
  | nil => intro m; simp
  | cons i is ih =>
    intro m
    obtain ⟨h1, h2, h3, h4⟩ := ih (addReplica key m i)
    have hh : (addReplica key m i).hash = m.hash := rfl
    have hc : (fun j : Nat => hashInt (addReplica key m i) (toString j ++ key)) =
        (fun j : Nat => hashInt m (toString j ++ key)) := by
      funext j
      exact hashInt_congr _ _ hh _
    rw [hc] at h3 h4
    refine ⟨h1.trans hh, h2, ?_, ?_⟩
    · simp only [List.foldl_cons, h3, List.map_cons]
      simp [addReplica]
    · intro x
      simp only [List.foldl_cons, h4 x, List.map_cons, List.mem_cons]
      by_cases hx : x ∈ is.map (fun j : Nat => hashInt m (toString j ++ key))
      · simp [hx]
      · simp only [if_neg hx, addReplica, lookup_setPeer]
        by_cases hx2 : x = hashInt m (toString i ++ key)
        · simp [hx2]
        · simp [hx2, hx]

theorem addPeer_spec (m : Map) (key : String) :
    (addPeer m key).hash = m.hash ∧ (addPeer m key).replicas = m.replicas ∧
    (addPeer m key).keys = m.keys ++ vnodes m key ∧
    ∀ x, (addPeer m key).hashMap.lookup x =
      if x ∈ vnodes m key then some key else m.hashMap.lookup x :=
  foldl_addReplica key (List.range m.replicas.toNat) m

theorem foldl_addPeer_frame (ks : List String) :
    ∀ m : Map, (ks.foldl addPeer m).hash = m.hash ∧
      (ks.foldl addPeer m).replicas = m.replicas := by
  induction ks with
  | nil => intro m; exact ⟨rfl, rfl⟩
  | cons k ks ih =>
    intro m
    obtain ⟨h1, h2⟩ := ih (addPeer m k)
    obtain ⟨h3, h4, _⟩ := addPeer_spec m k
    exact ⟨h1.trans h3, h2.trans h4⟩

theorem Add_frame (m : Map) (ks : List String) :
    (Add m ks).hash = m.hash ∧ (Add m ks).replicas = m.replicas :=
  foldl_addPeer_frame ks m

theorem ring_frame (rpl : Int) (fx : Option Hash) (adds : List (List String)) :
    (ring rpl fx adds).hash = (New rpl fx).hash ∧ (ring rpl fx adds).replicas = rpl := by
  induction adds using List.reverseRecOn with
  | nil => exact ⟨rfl, rfl⟩
  | append_singleton adds ks ih =>
    rw [ring_snoc]
    obtain ⟨h1, h2⟩ := Add_frame (ring rpl fx adds) ks
    exact ⟨h1.trans ih.1, h2.trans ih.2⟩

/-- The call `Add(p)` for a single peer: the slice gains the hashes of the virtual nodes of
`p`, which `hashMap` now binds to `p`; every other binding is kept. -/
theorem Add_single (m : Map) (p : String) :
    (∀ x, x ∈ (Add m [p]).keys ↔ x ∈ m.keys ∨ x ∈ vnodes m p) ∧
    (∀ x, peerOf (Add m [p]).hashMap x =
      if x ∈ vnodes m p then p else peerOf m.hashMap x) := by
  obtain ⟨_, _, h3, h4⟩ := addPeer_spec m p
  constructor
  · intro x
    show x ∈ sortInts (addPeer m p).keys ↔ _
    rw [(sortInts_perm _).mem_iff, h3, List.mem_append]
  · intro x
    show ((addPeer m p).hashMap.lookup x).getD "" = _
    rw [h4 x]
    by_cases hx : x ∈ vnodes m p
    · simp [hx]
    · simp [hx, peerOf]

/-- Ring stability on a ring whose slice is in ascending order. -/
theorem Get_Add_single_of_sorted (m : Map) (hs : m.keys.Sorted (fun a b => a ≤ b)) (p key : String) :
    Get (Add m [p]) key = Get m key ∨ Get (Add m [p]) key = some p := by
  rw [Get_eq_GetRef_of_sorted _ (Add_keys_sorted m [p]) key, Get_eq_GetRef_of_sorted m hs key,
    GetRef_eq_succPoint, GetRef_eq_succPoint, hashInt_congr _ m (Add_frame m [p]).1]
  obtain ⟨hk, hp⟩ := Add_single m p
  cases h2 : succPoint (Add m [p]).keys (hashInt m key) with
  | none =>
    left
    have hnil := (succPoint_eq_none_iff _ _).1 h2
    have : m.keys = [] := by
      apply List.eq_nil_iff_forall_not_mem.2
      intro x hx
      have := (hk x).2 (Or.inl hx)
      rw [hnil] at this
      cases this
    rw [(succPoint_eq_none_iff m.keys _).2 this]
  | some x =>
    by_cases hx : x ∈ vnodes m p
    · right
      simp only [hp x, if_pos hx]
    · left
      have hxk : ∀ y, y ∈ m.keys → y ∈ (Add m [p]).keys := fun y hy => (hk y).2 (Or.inl hy)
      have hxm : x ∈ (Add m [p]).keys → x ∈ m.keys := fun h => ((hk x).1 h).resolve_right hx
      have : succPoint m.keys (hashInt m key) = some x := by
        rw [succPoint_eq_some_iff] at h2 ⊢
        rcases h2 with ⟨h3, h4, h5⟩ | ⟨h3, h4, h5⟩
        · exact Or.inl ⟨hxm h3, h4, fun y hy hyh => h5 y (hxk y hy) hyh⟩
        · exact Or.inr ⟨fun y hy => h3 y (hxk y hy), hxm h4, fun y hy => h5 y (hxk y hy)⟩
      rw [this]
      simp only [hp x, if_neg hx]

/-! ### C7: the ring as a function of the set of peers -/

theorem vnodes_congr (m1 m2 : Map) (h : m1.hash = m2.hash) (hr : m1.replicas = m2.replicas)
    (key : String) : vnodes m1 key = vnodes m2 key := by
  simp only [vnodes, hr]
  congr 1
  funext i
  exact hashInt_congr _ _ h _

theorem RingOf_addPeer (m0 : Map) (S : List String) (m : Map) (k : String)
    (h : RingOf m0 S m) : RingOf m0 (S ++ [k]) (addPeer m k) := by
  obtain ⟨h1, h2, h3, h4⟩ := h
  obtain ⟨a1, a2, a3, a4⟩ := addPeer_spec m k
  have hv : vnodes m k = vnodes m0 k := vnodes_congr m m0 h1 h2 k
  refine ⟨a1.trans h1, a2.trans h2, ?_, ?_⟩
  · intro x
    rw [a3, List.mem_append, h3 x, hv]
    constructor
    · rintro (⟨p, hp, hx⟩ | hx)
      · exact ⟨p, List.mem_append_left _ hp, hx⟩
      · exact ⟨k, by simp, hx⟩
    · rintro ⟨p, hp, hx⟩
      rcases List.mem_append.1 hp with hp | hp
      · exact Or.inl ⟨p, hp, hx⟩
      · rw [List.mem_singleton.1 hp] at hx
        exact Or.inr hx
  · intro x q hq
    rw [a4 x, hv] at hq
    by_cases hx : x ∈ vnodes m0 k
    · rw [if_pos hx] at hq
      cases hq
      exact ⟨by simp, hx⟩
    · rw [if_neg hx] at hq
      obtain ⟨b1, b2⟩ := h4 x q hq
      exact ⟨List.mem_append_left _ b1, b2⟩

theorem RingOf_foldl_addPeer (m0 : Map) (ks : List String) :
    ∀ (S : List String) (m : Map), RingOf m0 S m → RingOf m0 (S ++ ks) (ks.foldl addPeer m) := by
  induction ks with
  | nil => intro S m h; simpa using h
  | cons k ks ih =>
    intro S m h
    have := ih (S ++ [k]) (addPeer m k) (RingOf_addPeer m0 S m k h)
    simpa using this

theorem RingOf_Add (m0 : Map) (S : List String) (m : Map) (ks : List String)
    (h : RingOf m0 S m) : RingOf m0 (S ++ ks) (Add m ks) := by
  obtain ⟨h1, h2, h3, h4⟩ := RingOf_foldl_addPeer m0 ks S m h
  refine ⟨h1, h2, ?_, h4⟩
  intro x
  show x ∈ sortInts (ks.foldl addPeer m).keys ↔ _
  rw [(sortInts_perm _).mem_iff]
  exact h3 x

/-- A ring built by `Add` calls holds the virtual nodes of the peers added. -/
theorem RingOf_ring (rpl : Int) (fx : Option Hash) (adds : List (List String)) :
    RingOf (New rpl fx) adds.flatten (ring rpl fx adds) := by
  induction adds using List.reverseRecOn with
  | nil => exact ⟨rfl, rfl, by simp [ring, New], by simp [ring, New]⟩
  | append_singleton adds ks ih =>
    rw [ring_snoc, List.flatten_append]
    simpa using RingOf_Add _ _ _ ks ih

/-- Two rings that hold the virtual nodes of the same set of peers, bind every
ring hash, and are in ascending order, have the same owner for every key when
no two peers of the set share the hash of a virtual node. -/
theorem Get_eq_of_RingOf (m0 : Map) (S1 S2 : List String) (m1 m2 : Map)
    (h1 : RingOf m0 S1 m1) (h2 : RingOf m0 S2 m2) (k1 : KeysMatch m1) (k2 : KeysMatch m2)
    (s1 : m1.keys.Sorted (fun a b => a ≤ b)) (s2 : m2.keys.Sorted (fun a b => a ≤ b))
    (hS : ∀ p, p ∈ S1 ↔ p ∈ S2)
    (hcol : ∀ p ∈ S1, ∀ q ∈ S1, ∀ x, x ∈ vnodes m0 p → x ∈ vnodes m0 q → p = q)
    (key : String) : Get m1 key = Get m2 key := by
  rw [Get_eq_GetRef_of_sorted m1 s1 key, Get_eq_GetRef_of_sorted m2 s2 key,
    GetRef_eq_succPoint, GetRef_eq_succPoint,
    hashInt_congr m1 m0 h1.1, hashInt_congr m2 m0 h2.1]
  have hmem : ∀ x, x ∈ m1.keys ↔ x ∈ m2.keys := by
    intro x
    rw [h1.2.2.1 x, h2.2.2.1 x]
    constructor
    · rintro ⟨p, hp, hx⟩; exact ⟨p, (hS p).1 hp, hx⟩
    · rintro ⟨p, hp, hx⟩; exact ⟨p, (hS p).2 hp, hx⟩
  rw [succPoint_congr m1.keys m2.keys _ hmem]
  cases hsp : succPoint m2.keys (hashInt m0 key) with
  | none => rfl
  | some x =>
    have hx2 : x ∈ m2.keys := by
      rcases (succPoint_eq_some_iff _ _ _).1 hsp with ⟨h, _, _⟩ | ⟨_, h, _⟩ <;> exact h
    have hx1 : x ∈ m1.keys := (hmem x).2 hx2
    have e1 := (assoc.lookup_isSome_iff _ _).2 ((k1.1 x).1 hx1)
    have e2 := (assoc.lookup_isSome_iff _ _).2 ((k2.1 x).1 hx2)
    obtain ⟨q1, hq1⟩ := Option.isSome_iff_exists.1 e1
    obtain ⟨q2, hq2⟩ := Option.isSome_iff_exists.1 e2
    obtain ⟨a1, a2⟩ := h1.2.2.2 x q1 hq1
    obtain ⟨b1, b2⟩ := h2.2.2.2 x q2 hq2
    have : q1 = q2 := hcol q1 a1 q2 ((hS q2).2 b1) x a2 b2
    simp only [peerOf, hq1, hq2, this]

/-! ### C9: every inserted hash is in the slice, once per insertion -/

theorem foldl_addPeer_keys (ks : List String) :
    ∀ m : Map, (ks.foldl addPeer m).keys = m.keys ++ (ks.map (vnodes m)).flatten := by
  induction ks with
  | nil => intro m; simp
  | cons k ks ih =>
    intro m
    obtain ⟨a1, a2, a3, _⟩ := addPeer_spec m k
    have hv : vnodes (addPeer m k) = vnodes m := by
      funext p
      exact vnodes_congr _ _ a1 a2 p
    simp only [List.foldl_cons, ih (addPeer m k), a3, hv, List.map_cons, List.flatten_cons,
      List.append_assoc]

/-- The slice after `Add`: the slice before and the hashes of the virtual nodes of
the peers added, each as often as it was inserted, in ascending order. -/
theorem Add_keys_perm (m : Map) (ks : List String) :
    (Add m ks).keys.Perm (m.keys ++ (ks.map (vnodes m)).flatten) := by
  show (sortInts (ks.foldl addPeer m).keys).Perm _
  rw [← foldl_addPeer_keys ks m]
  exact sortInts_perm _

/-- The slice of a ring built by `Add` calls is a rearrangement of the hashes of
all the virtual nodes inserted. -/
theorem ring_keys_perm (rpl : Int) (fx : Option Hash) (adds : List (List String)) :
    (ring rpl fx adds).keys.Perm ((adds.flatten.map (vnodes (New rpl fx))).flatten) := by
  induction adds using List.reverseRecOn with
  | nil => simp [ring, New]
  | append_singleton adds ks ih =>
    rw [ring_snoc]
    obtain ⟨h1, h2⟩ := ring_frame rpl fx adds
    have hv : vnodes (ring rpl fx adds) = vnodes (New rpl fx) := by
      funext p
      exact vnodes_congr _ _ h1 h2 p
    refine (Add_keys_perm _ ks).trans ?_
    rw [hv]
    simp only [List.flatten_append, List.map_append, List.flatten_cons, List.flatten_nil,
      List.append_nil]
    exact List.Perm.append_right _ ih

end consistenthash

namespace singleflight

open assoc

/-! ### Single flight, one goroutine -/

/-- With no call for the key in flight, `Do` runs `fx` and leaves the entries of
the map as they were. -/
theorem Do_idle {α σ : Type} (g : Group α) (key : String)
    (fx : σ → Option ((α × Option String) × σ)) (s : σ)
    (hidle : (inFlight g).lookup key = none) :
    Do g key fx s = (fx s).map (fun p => (p.1, { m := some (inFlight g) }, p.2)) := by
  have hnot : key ∉ (inFlight g).map Prod.fst := (lookup_eq_none_iff _ _).1 hidle
  have hdel : lru.mapDelete (lru.mapSet (inFlight g) key { val := none, err := none }) key =
      inFlight g := by
    simp only [lru.mapSet, lru.mapDelete_of_not_mem _ _ hnot]
    simp only [lru.mapDelete, List.filter_cons_of_neg, bne_self_eq_false, Bool.false_eq_true,
      not_false_eq_true]
    exact lru.mapDelete_of_not_mem _ _ hnot
  have hl : (match g.m with
      | some m => m
      | none => []).lookup key = none := hidle
  unfold Do
  rw [hl]
  cases fx s with
  | none => rfl
  | some p =>
    obtain ⟨r, s2⟩ := p
    simp only [Option.map_some']
    have : (match g.m with
      | some m => m
      | none => []) = inFlight g := rfl
    rw [this, hdel]

end singleflight

namespace zhongcache

/-! ### The read path of a group, one goroutine -/

/-- A miss leaves the cache as it was. -/
theorem cache_get_miss (c : cache) (key : String) (h : (c.get key).1 = none) :
    (c.get key).2 = c := by
  unfold cache.get at h ⊢
  cases hl : c.lru with
  | none => simp only
  | some l =>
    rw [hl] at h
    simp only at h ⊢
    rw [lru.Get_none_state l key h]
    cases c
    simp only at hl
    rw [hl]

/-- With no call for the key in flight, `load` runs `loadOnce` once. -/
theorem load_idle {ω : Type} (g : Group ω) (key : String) (env : Env ω)
    (hidle : (singleflight.inFlight g.loader).lookup key = none) :
    Group.load g key env =
      (g.loadOnce key (g.mainCache, env)).map (fun p =>
        (loadResult p.1,
          { g with mainCache := p.2.1, loader := { m := some (singleflight.inFlight g.loader) } },
          p.2.2)) := by
  unfold Group.load
  rw [singleflight.Do_idle g.loader key _ _ hidle]
  cases g.loadOnce key (g.mainCache, env) with
  | none => rfl
  | some p =>
    obtain ⟨⟨v, err⟩, c2, e2⟩ := p
    cases err <;> rfl

/-- A miss on a key that is not empty goes on to `load`, on the same group. -/
theorem Get_miss {ω : Type} (g : Group ω) (key : String) (env : Env ω) (hk : key ≠ "")
    (hmiss : (g.mainCache.get key).1 = none) :
    Group.Get g key env = Group.load g key env := by
  unfold Group.Get
  rw [if_neg hk, hmiss, cache_get_miss _ _ hmiss]

/-- A hit returns the cached value and calls no interface. -/
theorem Get_hit {ω : Type} (g : Group ω) (key : String) (env : Env ω) (hk : key ≠ "")
    (v : ByteView) (hhit : (g.mainCache.get key).1 = some v) :
    Group.Get g key env =
      some ((v, none), { g with mainCache := (g.mainCache.get key).2 }, env) := by
  unfold Group.Get
  rw [if_neg hk, hhit]

/-- What `getLocally` returns already has the form `load` returns. -/
theorem getLocally_loadResult {ω : Type} (g : Group ω) (key : String) (st : cache × Env ω)
    (p : (ByteView × Option String) × cache × Env ω) (h : g.getLocally key st = some p) :
    loadResult p.1 = p.1 := by
  unfold Group.getLocally at h
  cases hg : (g.getter.Get key st.2.world).1.2 with
  | some err =>
    rw [hg] at h
    simp only [Option.some.injEq] at h
    rw [← h]
    rfl
  | none =>
    rw [hg] at h
    simp only [Option.map_eq_some'] at h
    obtain ⟨c2, _, h2⟩ := h
    rw [← h2]
    rfl

/-- When the load reaches `getLocally`, `loadOnce` is `getLocally` in the
environment the peer path has left. -/
theorem loadOnce_of_LoadsLocally {ω : Type} (g : Group ω) (key : String) (c : cache)
    (env envL : Env ω) (h : Group.LoadsLocally g key env envL) :
    g.loadOnce key (c, env) = g.getLocally key (c, envL) := by
  cases h with
  | noPicker hp => simp only [Group.loadOnce, hp]
  | notFound picker w1 hp hpick => simp only [Group.loadOnce, hp, hpick]
  | peerError picker peer w1 w2 bytes e hp hpick hget =>
    simp only [Group.loadOnce, hp, hpick, Group.getFromPeer, hget, List.append_assoc,
      List.singleton_append]

/-- The outcome of `Get` on a miss that is loaded locally. -/
theorem Get_of_LoadsLocally {ω : Type} (g : Group ω) (key : String) (env envL : Env ω)
    (hk : key ≠ "") (hmiss : (g.mainCache.get key).1 = none)
    (hidle : (singleflight.inFlight g.loader).lookup key = none)
    (h : Group.LoadsLocally g key env envL) :
    Group.Get g key env =
      (g.getLocally key (g.mainCache, envL)).map (fun p =>
        (p.1, { g with mainCache := p.2.1,
                       loader := { m := some (singleflight.inFlight g.loader) } }, p.2.2)) := by
  rw [Get_miss g key env hk hmiss, load_idle g key env hidle,
    loadOnce_of_LoadsLocally g key g.mainCache env envL h]
  cases hl : g.getLocally key (g.mainCache, envL) with
  | none => rfl
  | some p =>
    simp only [Option.map_some', getLocally_loadResult g key _ p hl]

/-- The error `getLocally` returns is the error of the loader. -/
theorem getLocally_err {ω : Type} (g : Group ω) (key : String) (st : cache × Env ω)
    (p : (ByteView × Option String) × cache × Env ω) (h : g.getLocally key st = some p) :
    p.1.2 = (g.getter.Get key st.2.world).1.2 := by
  unfold Group.getLocally at h
  cases hg : (g.getter.Get key st.2.world).1.2 with
  | some err =>
    rw [hg] at h
    simp only [Option.some.injEq] at h
    rw [← h]
  | none =>
    rw [hg] at h
    simp only [Option.map_eq_some'] at h
    obtain ⟨c2, _, h2⟩ := h
    rw [← h2]

/-- A loader error ends `getLocally` with that error and the cache untouched. -/
theorem getLocally_of_error {ω : Type} (g : Group ω) (key : String) (st : cache × Env ω)
    (e : String) (h : (g.getter.Get key st.2.world).1.2 = some e) :
    g.getLocally key st =
      some (({ b := [] }, some e), st.1,
        { world := (g.getter.Get key st.2.world).2, calls := st.2.calls ++ [Call.loader key] }) := by
  simp only [Group.getLocally, h]

/-! ### The cache of a group and its LRU engine -/

theorem cache_get_engine (c : cache) (key : String) :
    (c.get key).1 = (lru.Get c.engine key).1 ∧
    (c.get key).2.engine = (lru.Get c.engine key).2 ∧
    (c.get key).2.cacheBytes = c.cacheBytes := by
  unfold cache.get cache.engine
  cases hl : c.lru with
  | none => simp [hl, lru.Get, lru.New]
  | some l => simp

theorem cache_add_engine (c : cache) (key : String) (val : ByteView) :
    c.add key val = (lru.Add c.engine key val ()).map (fun r => { c with lru := some r.1 }) :=
  rfl

/-- A resident entry is a hit, and stays resident. -/
theorem cache_get_resident (c : cache) (key : String) (v : ByteView)
    (hi : lru.Inv c.engine) (e : lru.Element ByteView) (he : e ∈ c.engine.dList)
    (hent : e.entry = { key := key, value := v }) :
    (c.get key).1 = some v ∧ lru.Inv (c.get key).2.engine ∧
    ∃ e2 ∈ (c.get key).2.engine.dList, e2.entry = { key := key, value := v } := by
  obtain ⟨h1, h2, _⟩ := cache_get_engine c key
  have hk : e.entry.key = key := by rw [hent]
  have hg := hi.Get_resident key e he hk
  refine ⟨?_, ?_, e, ?_, hent⟩
  · rw [h1, hg, hent]
  · rw [h2]; exact lru.Inv_Get hi key
  · rw [h2, hg]; simp

/-- On a resident entry two calls of `Get` in a row are hits: both return the
value held and neither calls an interface. -/
theorem Get_twice_of_resident {ω : Type} (g : Group ω) (key : String) (v : ByteView)
    (env : Env ω) (hk : key ≠ "") (hi : lru.Inv g.mainCache.engine)
    (e : lru.Element ByteView) (he : e ∈ g.mainCache.engine.dList)
    (hent : e.entry = { key := key, value := v }) :
    ∃ (g1 g2 : Group ω), Group.Get g key env = some ((v, none), g1, env) ∧
      Group.Get g1 key env = some ((v, none), g2, env) := by
  obtain ⟨h1, h2, e2, he2, hent2⟩ := cache_get_resident g.mainCache key v hi e he hent
  obtain ⟨h3, _, _⟩ := cache_get_resident (g.mainCache.get key).2 key v h2 e2 he2 hent2
  exact ⟨_, _, Get_hit g key env hk v h1,
    Get_hit { g with mainCache := (g.mainCache.get key).2 } key env hk v h3⟩

/-! ### The states a group reaches -/

theorem engine_of_some (c : cache) (l : lru.Cache Unit ByteView) :
    ({ c with lru := some l } : cache).engine = l := rfl

/-- The group `NewGroup` returns is settled. -/
theorem Settled_NewGroup {ω : Type} (groups groups2 : List (String × Group ω)) (name : String)
    (cacheBytes : Int) (getter : Getter ω) (key : String) (v : ByteView) (g0 : Group ω)
    (h : NewGroup groups name cacheBytes (some getter) = Except.ok (g0, groups2)) :
    Group.Settled getter cacheBytes key v g0 := by
  simp only [NewGroup, Except.ok.injEq, Prod.mk.injEq] at h
  rw [← h.1]
  refine ⟨rfl, rfl, rfl, lru.Inv_New cacheBytes none, rfl, rfl, ?_⟩
  intro e he
  simp [cache.engine, lru.New] at he

/-- A call of `Get` that returns leaves a settled group settled, when the loader
returns the bytes of `v` for `key` whenever it is asked for it. -/
theorem Settled_Get {ω : Type} (getter : Getter ω) (cacheBytes : Int) (key : String)
    (b : List UInt8) (hload : ∀ w, (getter.Get key w).1 = (b, none))
    (g : Group ω) (k2 : String) (env : Env ω)
    (r : ByteView × Option String) (g2 : Group ω) (env2 : Env ω)
    (hs : Group.Settled getter cacheBytes key { b := b } g)
    (hg : Group.Get g k2 env = some (r, g2, env2)) :
    Group.Settled getter cacheBytes key { b := b } g2 := by
  obtain ⟨s1, s2, s3, s4, s5, s6, s7⟩ := hs
  by_cases hk : k2 = ""
  · subst hk
    simp only [Group.Get, if_pos, Option.some.injEq, Prod.mk.injEq] at hg
    rw [← hg.2.1]
    exact ⟨s1, s2, s3, s4, s5, s6, s7⟩
  · obtain ⟨e1, e2, e3⟩ := cache_get_engine g.mainCache k2
    cases hv : (g.mainCache.get k2).1 with
    | some v2 =>
      rw [Get_hit g k2 env hk v2 hv] at hg
      simp only [Option.some.injEq, Prod.mk.injEq] at hg
      rw [← hg.2.1]
      refine ⟨s1, s2, e3.trans s3, e2 ▸ lru.Inv_Get s4 k2, ?_, s6, ?_⟩
      · show (g.mainCache.get k2).2.engine.maxBytes = cacheBytes
        rw [e2, (lru.Get_frame _ k2).1]; exact s5
      · intro e he
        apply s7 e
        have : e ∈ (g.mainCache.get k2).2.engine.dList := he
        rw [e2] at this
        exact (lru.Get_perm _ k2).subset this
    | none =>
      have hidle : (singleflight.inFlight g.loader).lookup k2 = none := by rw [s6]; rfl
      rw [Get_of_LoadsLocally g k2 env env hk hv hidle (Group.LoadsLocally.noPicker s2)] at hg
      cases hl : (g.getter.Get k2 env.world).1.2 with
      | some err =>
        rw [getLocally_of_error g k2 (g.mainCache, env) err hl] at hg
        simp only [Option.map_some', Option.some.injEq, Prod.mk.injEq] at hg
        rw [← hg.2.1]
        exact ⟨s1, s2, s3, s4, s5, by rw [s6]; rfl, s7⟩
      | none =>
        simp only [Group.getLocally, hl, Group.populateCache, cache_add_engine,
          Option.map_map, Option.map_eq_some'] at hg
        obtain ⟨⟨c2, u2⟩, ha, hg⟩ := hg
        simp only [Function.comp, Prod.mk.injEq] at hg
        rw [← hg.2.1]
        obtain ⟨i1, i2, _, _⟩ := lru.Inv_Add s4 k2 _ () c2 u2 ha
        refine ⟨s1, s2, s3, i1, i2.trans s5, by rw [s6]; rfl, ?_⟩
        intro e he hek
        have he2 : e ∈ c2.dList := he
        rcases lru.step_entries s4 () (lru.Op.add k2 _) c2 u2 ha e he2 with ⟨hm, _⟩ | heq
        · exact s7 e hm hek
        · simp only [lru.Op.add.injEq] at heq
          rw [← heq.2, cloneBytes, heq.1, hek, s1, hload]

/-- Every state a sequence of `Get` calls reaches from a settled group is settled. -/
theorem Settled_gets {ω : Type} (getter : Getter ω) (cacheBytes : Int) (key : String)
    (b : List UInt8) (hload : ∀ w, (getter.Get key w).1 = (b, none)) (keys : List String) :
    ∀ (g : Group ω) (env : Env ω) (g2 : Group ω) (env2 : Env ω),
      Group.Settled getter cacheBytes key { b := b } g →
      Group.gets g keys env = some (g2, env2) →
      Group.Settled getter cacheBytes key { b := b } g2 := by
  induction keys with
  | nil =>
    intro g env g2 env2 hs h
    simp only [Group.gets, List.foldlM_nil, pure, Option.some.injEq, Prod.mk.injEq] at h
    rw [← h.1]; exact hs
  | cons k ks ih =>
    intro g env g2 env2 hs h
    simp only [Group.gets, List.foldlM_cons] at h
    cases hg : Group.Get g k env with
    | none => rw [hg] at h; simp [bind, Option.bind] at h
    | some p =>
      obtain ⟨r, g1, env1⟩ := p
      rw [hg] at h
      exact ih g1 env1 g2 env2 (Settled_Get getter cacheBytes key b hload g k env r g1 env1 hs hg) h

/-- On a settled group, for a key the loader answers with `b` and a capacity that
admits the entry, `Get` returns `b`, and a second `Get` returns `b` without a call
of any interface. -/
theorem Settled_Get_twice {ω : Type} (getter : Getter ω) (cacheBytes : Int) (key : String)
    (b : List UInt8) (hload : ∀ w, (getter.Get key w).1 = (b, none))
    (g : Group ω) (env : Env ω) (hk : key ≠ "")
    (hcap : cacheBytes = 0 ∨ (key.utf8ByteSize : Int) + (b.length : Int) ≤ cacheBytes)
    (hs : Group.Settled getter cacheBytes key { b := b } g) :
    ∃ (g1 : Group ω) (env1 : Env ω) (g2 : Group ω),
      Group.Get g key env = some (({ b := b }, none), g1, env1) ∧
      Group.Get g1 key env1 = some (({ b := b }, none), g2, env1) ∧
      (env1 = env ∨ env1.calls = env.calls ++ [Call.loader key]) := by
  obtain ⟨s1, s2, s3, s4, s5, s6, s7⟩ := hs
  obtain ⟨e1, e2, e3⟩ := cache_get_engine g.mainCache key
  rcases s4.Get_cases key with ⟨e, he, hek, hg⟩ | ⟨hn, hg⟩
  · have hent : e.entry = { key := key, value := ({ b := b } : ByteView) } := by
      have := s7 e he hek
      cases e with
      | mk id entry =>
        cases entry with
        | mk k v =>
          simp only at hek this
          rw [hek, this]
    obtain ⟨g1, g2, h1, h2⟩ := Get_twice_of_resident g key { b := b } env hk s4 e he hent
    exact ⟨g1, env, g2, h1, h2, Or.inl rfl⟩
  · have hv : (g.mainCache.get key).1 = none := by rw [e1, hg]
    have hidle : (singleflight.inFlight g.loader).lookup key = none := by rw [s6]; rfl
    have hl : (g.getter.Get key env.world).1 = (b, none) := by rw [s1]; exact hload _
    have hl1 : (g.getter.Get key env.world).1.1 = b := by rw [hl]
    have hl2 : (g.getter.Get key env.world).1.2 = none := by rw [hl]
    have hsize : lru.entrySize
        ({ key := key, value := ({ b := b } : ByteView) } : lru.Entry ByteView) =
          (key.utf8ByteSize : Int) + (b.length : Int) := rfl
    have hcap2 : g.mainCache.engine.maxBytes = 0 ∨
        lru.wrap64 (lru.entrySize
          ({ key := key, value := ({ b := b } : ByteView) } : lru.Entry ByteView)) ≤
          g.mainCache.engine.maxBytes := by
      rw [s5, hsize]
      rcases hcap with h0 | hle
      · exact Or.inl h0
      · right
        unfold lru.wrap64
        omega
    have hm : 0 ≤ g.mainCache.engine.maxBytes := by
      rw [s5]
      rcases hcap with h0 | hle
      · omega
      · omega
    obtain ⟨c2, u2, e, ha, hi2, _, _, he, hent, _⟩ :=
      lru.Add_keeps_added s4 hm key ({ b := b } : ByteView) () hcap2
    have hfirst : Group.Get g key env = some (({ b := b }, none),
        { g with mainCache := { g.mainCache with lru := some c2 },
                 loader := { m := some (singleflight.inFlight g.loader) } },
        { world := (g.getter.Get key env.world).2, calls := env.calls ++ [Call.loader key] }) := by
      rw [Get_of_LoadsLocally g key env env hk hv hidle (Group.LoadsLocally.noPicker s2)]
      simp only [Group.getLocally, hl2, hl1, Group.populateCache, cache_add_engine, cloneBytes,
        ha, Option.map_some']
    obtain ⟨g2, g3, h1, _⟩ := Get_twice_of_resident
      ({ g with mainCache := { g.mainCache with lru := some c2 },
                loader := { m := some (singleflight.inFlight g.loader) } } : Group ω)
      key { b := b }
      { world := (g.getter.Get key env.world).2, calls := env.calls ++ [Call.loader key] }
      hk hi2 e he hent
    exact ⟨_, _, g2, hfirst, h1, Or.inr rfl⟩

/-! ### The path of a request -/

theorem span_until_slash (a rest : List Char) (h : '/' ∉ a) :
    (a ++ '/' :: rest).span (fun ch => ch != '/') = (a, '/' :: rest) := by
  rw [List.span_eq_take_drop]
  induction a with
  | nil => simp [List.takeWhile, List.dropWhile]
  | cons x a ih =>
    have hx : x ≠ '/' := fun e => h (e ▸ List.mem_cons_self _ _)
    have ha : '/' ∉ a := fun e => h (List.mem_cons_of_mem _ e)
    have hb : (x != '/') = true := by simpa using hx
    have := ih ha
    simp only [Prod.mk.injEq] at this
    rw [List.cons_append, List.takeWhile_cons, List.dropWhile_cons, hb]
    simp only [if_true, this.1, this.2]

/-- A path made of the base path, a group name without `/`, a `/` and a key
splits into that group name and that key. -/
theorem split_request_path (base groupName key : String) (h : '/' ∉ groupName.data) :
    base.data.isPrefixOf (base ++ groupName ++ "/" ++ key).data = true ∧
    splitN2 ((base ++ groupName ++ "/" ++ key).data.drop base.data.length) =
      [groupName, key] := by
  have hd : (base ++ groupName ++ "/" ++ key).data =
      base.data ++ (groupName.data ++ '/' :: key.data) := by
    simp [String.data_append]
  rw [hd]
  constructor
  · rw [List.isPrefixOf_iff_prefix]
    exact List.prefix_append _ _
  · rw [List.drop_left]
    simp only [splitN2, span_until_slash _ _ h]

end zhongcache

/-! # The properties -/

/-! ## Properties of the LRU engine -/

namespace lru

/-- C1: on a cache made by `New` with `maxBytes > 0`, after any sequence of calls
a further `Add` returns, and when it has returned `usedBytes <= maxBytes` and the
index has as many keys as the recency list has nodes. -/
theorem add_keeps_capacity_and_index_size {σ V : Type} [Value V] (maxBytes : Int)
    (cb : Option (String → V → σ → σ)) (s0 : σ) (ops : List (Op V)) (key : String) (val : V)
    (hm : 0 < maxBytes) :
    ∃ c s, run (ops ++ [Op.add key val]) (New maxBytes cb) s0 = some (c, s) ∧
      c.maxBytes = maxBytes ∧ c.usedBytes ≤ maxBytes ∧ c.cMap.length = c.dList.length := by
  have hi : Inv (New maxBytes cb : Cache σ V) := Inv_New maxBytes cb
  have h0 : 0 ≤ (New maxBytes cb : Cache σ V).maxBytes := le_of_lt hm
  obtain ⟨⟨c1, s1⟩, hr⟩ := run_some ops _ s0 hi h0
  obtain ⟨h1, h2, _⟩ := Inv_run ops _ s0 c1 s1 hi hr
  have h3 : c1.maxBytes = maxBytes := h2
  obtain ⟨⟨c, s⟩, ha⟩ := Add_some h1 (by omega) key val s1
  obtain ⟨h4, h5, _, h7⟩ := Inv_Add h1 key val s1 c s ha
  refine ⟨c, s, ?_, h5.trans h3, ?_, ?_⟩
  · rw [run_snoc, hr]; exact ha
  · rw [h3] at h7
    by_contra hgt
    exact h7 ⟨by omega, by omega⟩
  · simpa using h4.index.length_eq

/-- Witness of C1 on the input of `TestOnEvicted`. -/
theorem add_keeps_capacity_and_index_size_witness :
    (0 : Int) < 20 ∧
    ∃ c s, run ([Op.add "key1" "value1", Op.add "key2" "value2", Op.add "key3" "value3"] ++
        [Op.add "key4" "value4"]) (New 20 (some recordKey)) ([] : List String) = some (c, s) ∧
      c.maxBytes = 20 ∧ c.usedBytes ≤ 20 ∧ c.cMap.length = c.dList.length :=
  ⟨by decide, add_keeps_capacity_and_index_size 20 (some recordKey) [] _ "key4" "value4"
    (by decide)⟩

/-- C2 as stated fails: `usedBytes` is an `int64` and the sum wraps. After
`New(10, nil)` and `Add("a", v)` with `v.Len()` the largest `int`, the entry `"a"`
is resident with a size of `2^63`, while `usedBytes` is `-2^63`: it is not the
sum, and it is negative. -/
theorem usedBytes_wraps_on_huge_value :
    run [Op.add "a" ({ size := 9223372036854775807 } : Sized)] (New 10 none) () =
      some (hugeCache, ()) ∧
    (hugeCache.dList.map (fun e =>
      (e.entry.key.utf8ByteSize : Int) + Value.Len e.entry.value)).sum = 9223372036854775808 ∧
    hugeCache.usedBytes = -9223372036854775808 ∧
    hugeCache.usedBytes ≠ (hugeCache.dList.map (fun e =>
      (e.entry.key.utf8ByteSize : Int) + Value.Len e.entry.value)).sum ∧
    ¬ 0 ≤ hugeCache.usedBytes :=
  ⟨by rfl, by decide, by rfl, by decide, by decide⟩

/-- C2, amended: in every state reached from `New` by `Add`, `Get` and `RemoveLRU`
calls (such a sequence returns whenever `maxBytes >= 0`), `usedBytes` is the
`int64` value of the sum of `len(key) + value.Len()` over the nodes of the list,
which is the sum over the entries of the index. It is that sum itself when the
sum lies within `int64`, as it does, and is then not negative, when every `Len()`
is non-negative and the sum is below `2^63`. Every key of the index occurs
exactly once in the list, and the index binds the key of every node to that
node. -/
theorem usedBytes_is_int64_sum_over_resident {σ V : Type} [Value V] (maxBytes : Int)
    (cb : Option (String → V → σ → σ)) (s0 : σ) (ops : List (Op V)) :
    (0 ≤ maxBytes → ∃ r, run ops (New maxBytes cb) s0 = some r) ∧
    ∀ c s, run ops (New maxBytes cb) s0 = some (c, s) →
      c.usedBytes = wrap64 (c.dList.map (fun e =>
        (e.entry.key.utf8ByteSize : Int) + Value.Len e.entry.value)).sum ∧
      residentBytes c = (c.dList.map (fun e =>
        (e.entry.key.utf8ByteSize : Int) + Value.Len e.entry.value)).sum ∧
      (-9223372036854775808 ≤ residentBytes c → residentBytes c < 9223372036854775808 →
        c.usedBytes = residentBytes c) ∧
      ((∀ v : V, 0 ≤ Value.Len v) → residentBytes c < 9223372036854775808 →
        c.usedBytes = residentBytes c ∧ 0 ≤ c.usedBytes) ∧
      (∀ k, (c.cMap.lookup k).isSome → (c.dList.map (fun e => e.entry.key)).count k = 1) ∧
      (∀ e ∈ c.dList, c.cMap.lookup e.entry.key = some e.id) := by
  have hi : Inv (New maxBytes cb : Cache σ V) := Inv_New maxBytes cb
  refine ⟨fun hm => run_some ops _ s0 hi hm, ?_⟩
  intro c s hr
  obtain ⟨h1, _, _⟩ := Inv_run ops _ s0 c s hi hr
  have hres : residentBytes c = listBytes c.dList := h1.residentBytes_eq
  refine ⟨h1.bytes, hres, ?_, ?_, ?_, ?_⟩
  · intro hlo hhi
    rw [h1.bytes, ← hres]
    exact wrap64_of_range _ hlo hhi
  · intro hlen hhi
    have hnn : 0 ≤ residentBytes c := hres ▸ listBytes_nonneg hlen c.dList
    have : c.usedBytes = residentBytes c := by
      rw [h1.bytes, ← hres]
      exact wrap64_of_range _ (by omega) hhi
    exact ⟨this, this ▸ hnn⟩
  · intro k hk
    apply List.count_eq_one_of_mem h1.keys
    by_contra hn
    rw [(h1.lookup_none k).2 hn] at hk
    simp at hk
  · intro e he
    exact (h1.lookup_some _ _).2 ⟨e, he, rfl, rfl⟩

/-- Witness of C2 (amended) on `scenarioOps`: one entry of 5 bytes is left. -/
theorem usedBytes_is_int64_sum_over_resident_witness :
    run scenarioOps (New 0 none) () = some (scenarioCache, ()) ∧
    residentBytes scenarioCache = 5 ∧
    (∀ v : String, 0 ≤ Value.Len v) ∧
    scenarioCache.usedBytes = residentBytes scenarioCache ∧ 0 ≤ scenarioCache.usedBytes :=
  ⟨by rfl, by decide, fun v => Int.ofNat_nonneg v.utf8ByteSize,
    ((usedBytes_is_int64_sum_over_resident 0 none () scenarioOps).2 scenarioCache ()
      (by rfl)).2.2.2.1 (fun v => Int.ofNat_nonneg v.utf8ByteSize) (by decide)⟩

/-- C3: on a state reached from `New` with `maxBytes > 0`, `Add` first puts the
node of the added key at the back of the list (the other nodes keep their order)
and then evicts the first `k` nodes of that list, where `k` is the least number
of evictions that leaves `usedBytes <= maxBytes`: after any smaller number `j` of
calls of `RemoveLRU`, `usedBytes`, which is the `int64` value of the sizes of the
nodes then left, exceeds `maxBytes`. `OnEvicted` is called once for each evicted
node, from the front on; the nodes not evicted stay in the list and in the
index, the evicted ones leave the index. On the tests' inputs the recorded keys
are `["key1", "key2"]` and two entries remain, `"key1"` not among them. -/
theorem add_evicts_shortest_front_run {σ V : Type} [Value V] (maxBytes : Int)
    (cb : Option (String → V → σ → σ)) (s0 : σ) (ops : List (Op V)) (c : Cache σ V) (s : σ)
    (key : String) (val : V) (hm : 0 < maxBytes)
    (hr : run ops (New maxBytes cb) s0 = some (c, s)) :
    (∃ (placed : Element V) (l : List (Element V)) (k : Nat) (c2 : Cache σ V) (s2 : σ),
      placed.entry = { key := key, value := val } ∧
      l = c.dList.filter (fun x => x.entry.key != key) ++ [placed] ∧
      (addEntry c key val).dList = l ∧
      Add c key val s = some (c2, s2) ∧ k ≤ l.length ∧
      c2.dList = l.drop k ∧
      removeFront k (addEntry c key val) s = (c2, s2) ∧
      c2.usedBytes = wrap64 (listBytes (l.drop k)) ∧ c2.usedBytes ≤ maxBytes ∧
      (∀ j, j < k → (removeFront j (addEntry c key val) s).1.usedBytes > maxBytes) ∧
      (∀ j, j < k → wrap64 (listBytes (l.drop j)) > maxBytes) ∧
      s2 = (l.take k).foldl (fun t e => fire cb e t) s ∧
      (∀ e ∈ l.drop k, c2.cMap.lookup e.entry.key = some e.id) ∧
      (∀ e ∈ l.take k, c2.cMap.lookup e.entry.key = none)) ∧
    (run [Op.add "key1" "value1", Op.add "key2" "value2", Op.add "key3" "value3",
        Op.add "key4" "value4"] (New 20 (some recordKey)) ([] : List String)).map
      (fun r => (r.2, Len r.1)) = some (["key1", "key2"], 2) ∧
    (run [Op.add "key1" "value1", Op.add "key2" "value2", Op.add "key3" "value3"]
        (New 20 (none : Option (String → String → Unit → Unit))) ()).map
      (fun r => ((Get r.1 "key1").1, Len r.1)) = some (none, 2) := by
  refine ⟨?_, by decide, by decide⟩
  have hi0 : Inv (New maxBytes cb : Cache σ V) := Inv_New maxBytes cb
  obtain ⟨hi, h2, h3⟩ := Inv_run ops _ s0 c s hi0 hr
  have hmax : c.maxBytes = maxBytes := h2
  have hcb : c.OnEvicted = cb := h3
  obtain ⟨k, c2, s2, ha, hi2, _, _, hk, hd, hu, hstop, hmin, hs⟩ :=
    Add_spec hi (by omega) key val s
  obtain ⟨k2, hk2, hd2, hrf, hgt⟩ := evictLoop_unroll _ _ _ _ _ ha
  have hkk : k2 = k := by
    have e1 := congrArg List.length hd
    have e2 := congrArg List.length hd2
    simp only [List.length_drop] at e1 e2
    omega
  subst hkk
  obtain ⟨placed, hp, hl⟩ := hi.addEntry_dList key val
  rw [(addEntry_frame c key val).1, hmax] at hgt
  rw [hl] at hk hd hu hmin hs
  rw [hmax] at hstop hmin
  rw [hcb] at hs
  refine ⟨placed, _, k2, c2, s2, hp, rfl, hl, ha, hk, hd, hrf, hu, ?_, hgt,
    fun j hj => (hmin j hj).2, hs, ?_, ?_⟩
  · by_contra hgt2
    exact hstop ⟨by omega, by omega⟩
  · intro e he
    exact (hi2.lookup_some _ _).2 ⟨e, hd ▸ he, rfl, rfl⟩
  · intro e he
    rw [hi2.lookup_none, hd]
    have hn := (Inv_addEntry hi key val).keys
    rw [hl] at hn
    rw [← List.take_append_drop k2 (c.dList.filter (fun x => x.entry.key != key) ++ [placed]),
      List.map_append] at hn
    exact fun hm2 => (List.nodup_append.1 hn).2.2
      (List.mem_map_of_mem (fun x => x.entry.key) he) hm2

/-- Witness of C3: the last `Add` of `TestOnEvicted`, on `testCache`. -/
theorem add_evicts_shortest_front_run_witness :
    (0 : Int) < 20 ∧
    run [Op.add "key1" "value1", Op.add "key2" "value2", Op.add "key3" "value3"]
      (New 20 (some recordKey)) ([] : List String) = some (testCache, ["key1"]) ∧
    ∃ (placed : Element String) (l : List (Element String)) (k : Nat)
        (c2 : Cache (List String) String) (s2 : List String),
      placed.entry = { key := "key4", value := "value4" } ∧
      l = testCache.dList.filter (fun x => x.entry.key != "key4") ++ [placed] ∧
      Add testCache "key4" "value4" ["key1"] = some (c2, s2) ∧
      c2.dList = l.drop k ∧ removeFront k (addEntry testCache "key4" "value4") ["key1"] = (c2, s2) ∧
      c2.usedBytes ≤ 20 ∧
      s2 = (l.take k).foldl (fun t e => fire (some recordKey) e t) ["key1"] :=
  ⟨by decide, by rfl,
    match (add_evicts_shortest_front_run 20 (some recordKey) []
      [Op.add "key1" "value1", Op.add "key2" "value2", Op.add "key3" "value3"]
      testCache ["key1"] "key4" "value4" (by decide) (by rfl)).1 with
    | ⟨placed, l, k, c2, s2, h1, h2, _, h3, _, h5, h6, _, h7, _, _, h9, _, _⟩ =>
      ⟨placed, l, k, c2, s2, h1, h2, h3, h5, h6, h7, h9⟩⟩

/-- C4 as stated fails: in a cache of capacity 10 whose only entry is `"a"`,
`Get("a")` is a hit and the next call `Add("b", "1234567")` evicts exactly one
entry, which is `"a"`. The evicted nodes are those in the list after `Add` has
stored the value and gone when it returns. -/
theorem recency_fails_for_sole_entry :
    ¬ (∀ (maxBytes : Int) (ops : List (Op String)) (c : Cache Unit String) (k k2 : String)
        (v : String) (c2 : Cache Unit String) (evicted : List (Element String)),
        0 < maxBytes → run ops (New maxBytes none) () = some (c, ()) →
        (Get c k).1.isSome = true →
        Add (Get c k).2 k2 v () = some (c2, ()) →
        evicted ++ c2.dList = (addEntry (Get c k).2 k2 v).dList →
        evicted.length = 1 →
        ∀ e ∈ evicted, e.entry.key ≠ k) := by
  intro h
  have h1 := h 10 [Op.add "a" "1234"] soleEntryCache "a" "b" "1234567" soleEntryCacheAfter
    [{ id := 0, entry := { key := "a", value := "1234" } }]
    (by decide) (by rfl) (by rfl) (by rfl) (by rfl) (by rfl)
    { id := 0, entry := { key := "a", value := "1234" } } (List.mem_singleton.2 rfl)
  exact h1 rfl

/-- C4, amended: in a state reached from `New`, let `Get(k)` be a hit and let some
entry other than `k` and `k2` be resident. If the next call `Add(k2, v)` returns
having evicted exactly one node, that node does not hold `k`. -/
theorem recently_read_key_survives_single_eviction {σ V : Type} [Value V] (maxBytes : Int)
    (cb : Option (String → V → σ → σ)) (s0 : σ) (ops : List (Op V)) (c : Cache σ V) (s : σ)
    (k k2 : String) (v : V) (c2 : Cache σ V) (s2 : σ) (evicted : List (Element V))
    (hr : run ops (New maxBytes cb) s0 = some (c, s))
    (hit : (Get c k).1.isSome = true)
    (hother : ∃ o ∈ c.dList, o.entry.key ≠ k ∧ o.entry.key ≠ k2)
    (_ha : Add (Get c k).2 k2 v s = some (c2, s2))
    (hev : evicted ++ c2.dList = (addEntry (Get c k).2 k2 v).dList)
    (hone : evicted.length = 1) :
    ∀ e ∈ evicted, e.entry.key ≠ k := by
  have hi0 : Inv (New maxBytes cb : Cache σ V) := Inv_New maxBytes cb
  obtain ⟨hi, _, _⟩ := Inv_run ops _ s0 c s hi0 hr
  have hi1 := Inv_Get hi k
  obtain ⟨placed, _, hl⟩ := hi1.addEntry_dList k2 v
  rcases hi.Get_cases k with ⟨ek, _, _, hg⟩ | ⟨_, hg⟩
  · rw [hg] at hl hev
    simp only [List.filter_append] at hl
    rw [hl] at hev
    obtain ⟨o, ho, hok, hok2⟩ := hother
    have hmem : o ∈ List.filter (fun x => x.entry.key != k2)
        (List.filter (fun x => x.entry.key != k) c.dList) := by
      simp [List.mem_filter, ho, hok, hok2]
    obtain ⟨e, rfl⟩ := List.length_eq_one.1 hone
    cases hA : List.filter (fun x => x.entry.key != k2)
        (List.filter (fun x => x.entry.key != k) c.dList) with
    | nil => rw [hA] at hmem; cases hmem
    | cons a A =>
      rw [hA] at hev
      simp only [List.singleton_append, List.cons_append, List.cons.injEq] at hev
      have ha : a ∈ List.filter (fun x => x.entry.key != k2)
          (List.filter (fun x => x.entry.key != k) c.dList) := by rw [hA]; simp
      have hak : a.entry.key ≠ k := by
        have := (List.mem_filter.1 (List.mem_filter.1 ha).1).2
        simpa using this
      intro x hx
      rw [List.mem_singleton.1 hx, hev.1]
      exact hak
  · rw [hg] at hit
    cases hit

/-- Witness of C4 (amended): `recencyCache` holds `"a"`, `"b"` and `"c"`; after the
hit `Get("a")` the call `Add("d", "12345")` evicts the node of `"b"` alone. -/
theorem recently_read_key_survives_single_eviction_witness :
    run [Op.add "a" "123", Op.add "b" "123", Op.add "c" "123"] (New 14 none) () =
      some (recencyCache, ()) ∧
    (Get recencyCache "a").1.isSome = true ∧
    Add (Get recencyCache "a").2 "d" "12345" () = some (recencyCacheAfter, ()) ∧
    ([{ id := 1, entry := { key := "b", value := "123" } }] : List (Element String)) ++
        recencyCacheAfter.dList = (addEntry (Get recencyCache "a").2 "d" "12345").dList ∧
    ({ id := 1, entry := { key := "b", value := "123" } } : Element String).entry.key ≠ "a" :=
  ⟨by rfl, by rfl, by rfl, by rfl,
    recently_read_key_survives_single_eviction 14 none ()
      [Op.add "a" "123", Op.add "b" "123", Op.add "c" "123"] recencyCache () "a" "d" "12345"
      recencyCacheAfter () [{ id := 1, entry := { key := "b", value := "123" } }]
      (by rfl) (by rfl)
      ⟨{ id := 1, entry := { key := "b", value := "123" } }, by decide, by decide, by decide⟩
      (by rfl) (by rfl) (by rfl)
      { id := 1, entry := { key := "b", value := "123" } } (List.mem_singleton.2 rfl)⟩

/-- C5: in a state reached from `New` by the calls `ops`, `Get(key)` on a
resident key returns `(v, true)` with `v` the value of the last `Add` under that
key, and moves the node of the key to the back of the list while the other nodes
keep their order; on a key that is not resident it returns a miss and the cache
is unchanged. In both cases `usedBytes`, the index and `Len()` are unchanged. On
the input of `TestGet` the hit returns `"value1"` and `"key2"` is a miss. -/
theorem get_hit_moves_to_back_miss_changes_nothing {σ V : Type} [Value V] (maxBytes : Int)
    (cb : Option (String → V → σ → σ)) (s0 : σ) (ops : List (Op V)) (c : Cache σ V) (s : σ)
    (key : String) (hr : run ops (New maxBytes cb) s0 = some (c, s)) :
    ((c.cMap.lookup key).isSome = true →
      ∃ e ∈ c.dList, e.entry.key = key ∧ lastAdded ops key = some e.entry.value ∧
        Get c key = (some e.entry.value,
          { c with dList := c.dList.filter (fun x => x.entry.key != key) ++ [e] })) ∧
    (c.cMap.lookup key = none → Get c key = (none, c)) ∧
    (Get c key).2.usedBytes = c.usedBytes ∧ (Get c key).2.cMap = c.cMap ∧
    Len (Get c key).2 = Len c ∧
    (run [Op.add "key1" "value1"] (New 0 (none : Option (String → String → Unit → Unit))) ()).map
      (fun r => ((Get r.1 "key1").1, (Get r.1 "key2").1)) = some (some "value1", none) := by
  have hi0 : Inv (New maxBytes cb : Cache σ V) := Inv_New maxBytes cb
  obtain ⟨hi, _, _⟩ := Inv_run ops _ s0 c s hi0 hr
  refine ⟨?_, ?_, (Get_frame c key).2.2.1, (Get_frame c key).2.2.2, (Get_perm c key).length_eq,
    by decide⟩
  · intro hsome
    rcases hi.Get_cases key with ⟨e, he, hk, hg⟩ | ⟨hn, _⟩
    · refine ⟨e, he, hk, ?_, hg⟩
      rw [← hk]
      exact run_lastAdded maxBytes cb s0 ops c s hr e he
    · rw [(hi.lookup_none key).2 hn] at hsome
      cases hsome
  · intro hnone
    exact hi.Get_absent key ((hi.lookup_none key).1 hnone)

/-- Witness of C5: `Get("key2")` on the cache of `TestOnEvicted` before its last `Add`. -/
theorem get_hit_moves_to_back_miss_changes_nothing_witness :
    run [Op.add "key1" "value1", Op.add "key2" "value2", Op.add "key3" "value3"]
      (New 20 (some recordKey)) ([] : List String) = some (testCache, ["key1"]) ∧
    (Get testCache "key2").1 = some "value2" ∧
    (Get testCache "key2").2.dList =
      [{ id := 2, entry := { key := "key3", value := "value3" } },
       { id := 1, entry := { key := "key2", value := "value2" } }] ∧
    (Get testCache "key1").1 = none ∧
    Len (Get testCache "key2").2 = Len testCache :=
  ⟨by rfl, by rfl, by rfl, by rfl,
    (get_hit_moves_to_back_miss_changes_nothing 20 (some recordKey) []
      [Op.add "key1" "value1", Op.add "key2" "value2", Op.add "key3" "value3"]
      testCache ["key1"] "key2" (by rfl)).2.2.2.2.1⟩

end lru

/-! ## Properties of the consistent-hash ring -/

namespace consistenthash

/-- C6: on every ring built by a sequence of `Add` calls, `Map.Get` with its
binary search returns the owner by the reference definition: `""` on a ring with
no hashes, otherwise the peer bound to the smallest ring hash that is at least
the hash of the key, or to the smallest ring hash overall when none is that
large. On the ring of `TestHashing` the keys `"2"`, `"11"`, `"23"` and `"27"` are
owned by `"2"`, `"2"`, `"4"` and `"2"`. -/
theorem get_is_reference_owner (rpl : Int) (fx : Option Hash) (adds : List (List String))
    (key : String) :
    Get (ring rpl fx adds) key = some (GetRef (ring rpl fx adds) key) ∧
    Get testRing "2" = some "2" ∧ Get testRing "11" = some "2" ∧
    Get testRing "23" = some "4" ∧ Get testRing "27" = some "2" :=
  ⟨Get_eq_GetRef_of_sorted _ (ring_keys_sorted rpl fx adds) key,
    by decide, by decide, by decide, by decide⟩

/-- C9 as stated fails: the slice of ring hashes is in general not a permutation
of the key set of `hashMap`. With one replica and the hash of `TestHashing`,
adding `"6"` twice, or adding `"6"` and `"06"` (whose virtual nodes `"06"` and
`"006"` both hash to 6), gives the slice `[6, 6]` against the single key `6`. -/
theorem keys_not_permutation_of_hashMap_keys :
    (ring 1 (some testHash) [["6"], ["6"]]).keys = [6, 6] ∧
    (ring 1 (some testHash) [["6"], ["6"]]).hashMap.map Prod.fst = [6] ∧
    ¬ (ring 1 (some testHash) [["6"], ["6"]]).keys.Perm
        ((ring 1 (some testHash) [["6"], ["6"]]).hashMap.map Prod.fst) ∧
    (ring 1 (some testHash) [["6", "06"]]).keys = [6, 6] ∧
    (ring 1 (some testHash) [["6", "06"]]).hashMap = [(6, "06")] ∧
    ¬ (ring 1 (some testHash) [["6", "06"]]).keys.Perm
        ((ring 1 (some testHash) [["6", "06"]]).hashMap.map Prod.fst) := by
  refine ⟨by decide, by decide, ?_, by decide, by decide, ?_⟩
  · intro h
    exact absurd h.length_eq (by decide)
  · intro h
    exact absurd h.length_eq (by decide)

/-- C9, amended: after every sequence of `Add` calls the slice of ring hashes is in
ascending order and is a permutation of the hashes of all the virtual nodes
inserted, so that a hash inserted several times, by colliding virtual nodes or
by a peer added again, occurs once per insertion. The slice has the same
elements as the key set of `hashMap`: every ring hash has a `hashMap` entry and
every `hashMap` key occurs in the slice. `hashMap` binds no hash twice, so the
slice with its repeated hashes dropped is a permutation of the key set. -/
theorem keys_sorted_and_same_elements_as_hashMap (rpl : Int) (fx : Option Hash)
    (adds : List (List String)) :
    (ring rpl fx adds).keys.Sorted (fun a b => a ≤ b) ∧
    (ring rpl fx adds).keys.Perm ((adds.flatten.map (vnodes (New rpl fx))).flatten) ∧
    (∀ x, (ring rpl fx adds).keys.count x =
      ((adds.flatten.map (vnodes (New rpl fx))).flatten).count x) ∧
    (∀ x ∈ (ring rpl fx adds).keys, ((ring rpl fx adds).hashMap.lookup x).isSome = true) ∧
    (∀ x ∈ (ring rpl fx adds).hashMap.map Prod.fst, x ∈ (ring rpl fx adds).keys) ∧
    ((ring rpl fx adds).hashMap.map Prod.fst).Nodup ∧
    (ring rpl fx adds).keys.dedup.Perm ((ring rpl fx adds).hashMap.map Prod.fst) := by
  obtain ⟨h1, h2⟩ := KeysMatch_ring rpl fx adds
  refine ⟨ring_keys_sorted rpl fx adds, ring_keys_perm rpl fx adds,
    fun x => (ring_keys_perm rpl fx adds).count_eq x, ?_, fun x hx => (h1 x).2 hx, h2, ?_⟩
  · intro x hx
    exact (assoc.lookup_isSome_iff _ _).2 ((h1 x).1 hx)
  · rw [List.perm_ext_iff_of_nodup (List.nodup_dedup _) h2]
    intro x
    rw [List.mem_dedup]
    exact h1 x

/-- C8: on every ring built by a sequence of `Add` calls, after `Add(p)` the owner
`Get(k)` of every key is the owner it had before or `p`. On the ring of
`TestHashing`, after `Add("8")` the key `"27"` is owned by `"8"` and the keys
`"2"`, `"11"` and `"23"` keep their owners. -/
theorem add_peer_moves_keys_only_to_new_peer (rpl : Int) (fx : Option Hash)
    (adds : List (List String)) (p key : String) :
    (Get (Add (ring rpl fx adds) [p]) key = Get (ring rpl fx adds) key ∨
      Get (Add (ring rpl fx adds) [p]) key = some p) ∧
    Get (Add testRing ["8"]) "27" = some "8" ∧
    Get (Add testRing ["8"]) "2" = Get testRing "2" ∧
    Get (Add testRing ["8"]) "11" = Get testRing "11" ∧
    Get (Add testRing ["8"]) "23" = Get testRing "23" :=
  ⟨Get_Add_single_of_sorted _ (ring_keys_sorted rpl fx adds) p key,
    by decide, by decide, by decide, by decide⟩

/-- C7 as stated fails: with one replica and the hash of `TestHashing`, the peers
`"1"` and `"01"` have virtual nodes `"01"` and `"001"`, which both hash to 1. The
ring on which `"01"` was added last gives every key to `"01"`, the ring on which
`"1"` was added last gives every key to `"1"`. -/
theorem ring_depends_on_insertion_order :
    ¬ (∀ (rpl : Int) (fx : Option Hash) (adds1 adds2 : List (List String)),
        (∀ p, p ∈ adds1.flatten ↔ p ∈ adds2.flatten) →
        ∀ key, Get (ring rpl fx adds1) key = Get (ring rpl fx adds2) key) := by
  intro h
  have h1 := h 1 (some testHash) [["1", "01"]] [["01", "1"]]
    (by intro p; simp only [List.flatten, List.append_nil, List.mem_cons]; tauto) "5"
  revert h1
  decide

/-- C7, amended: two rings created with the same replica count and the same hash
function, to which the same set of peers has been added in any order and
grouping of `Add` calls, give the same `Get(k)` for every key, provided no two
different peers of the set have virtual nodes with the same hash. -/
theorem rings_of_same_peers_agree (rpl : Int) (fx : Option Hash)
    (adds1 adds2 : List (List String))
    (hS : ∀ p, p ∈ adds1.flatten ↔ p ∈ adds2.flatten)
    (hcol : ∀ p ∈ adds1.flatten, ∀ q ∈ adds1.flatten, ∀ x,
      x ∈ vnodes (New rpl fx) p → x ∈ vnodes (New rpl fx) q → p = q)
    (key : String) :
    Get (ring rpl fx adds1) key = Get (ring rpl fx adds2) key :=
  Get_eq_of_RingOf (New rpl fx) _ _ _ _ (RingOf_ring rpl fx adds1) (RingOf_ring rpl fx adds2)
    (KeysMatch_ring rpl fx adds1) (KeysMatch_ring rpl fx adds2)
    (ring_keys_sorted rpl fx adds1) (ring_keys_sorted rpl fx adds2) hS hcol key

/-- Witness of C7 (amended): the peers of `TestHashing` added in one call, and in
another order over two calls with `"4"` added twice. -/
theorem rings_of_same_peers_agree_witness :
    Get (ring 3 (some testHash) [["6", "4", "2"]]) "27" =
      Get (ring 3 (some testHash) [["2", "4"], ["4", "6"]]) "27" :=
  rings_of_same_peers_agree 3 (some testHash) [["6", "4", "2"]] [["2", "4"], ["4", "6"]]
    (by intro p; simp only [List.flatten, List.append_nil, List.mem_cons, List.mem_append,
          List.cons_append, List.nil_append]; tauto)
    (by decide) "27"

end consistenthash

/-! ## Properties of the group read path -/

namespace zhongcache

/-- C10: for every group, `Get("")` returns an error, and the group (its cache
included) and the environment (the record of calls of the loader, the peer
picker and the peers included) are as before the call. -/
theorem get_empty_key_is_rejected {ω : Type} (g : Group ω) (env : Env ω) :
    ∃ (v : ByteView) (err : String) (g2 : Group ω) (env2 : Env ω),
      Group.Get g "" env = some ((v, some err), g2, env2) ∧
      g2 = g ∧ g2.mainCache = g.mainCache ∧ env2 = env ∧ env2.calls = env.calls := by
  refine ⟨{ b := [] }, "key if required", g, env, ?_, rfl, rfl, rfl, rfl⟩
  simp only [Group.Get, if_pos]

/-- C11: take a group made by `NewGroup`, with no picker registered, after any
sequence of `Get` calls by one goroutine. For a key that is not empty, for which
the loader returns the bytes `b` without error whenever it is asked, and a
capacity with `cacheBytes == 0` or `len(k) + len(b) <= cacheBytes`: `Get(k)`
returns a value with the bytes `b` and no error, calling the loader at most once,
and a `Get(k)` right after it returns the same bytes and leaves the environment,
the record of loader calls included, as it is. -/
theorem local_load_then_cache_hit {ω : Type} (groups groups2 : List (String × Group ω))
    (name : String) (cacheBytes : Int) (getter : Getter ω) (g0 : Group ω)
    (keys : List String) (env0 : Env ω) (g : Group ω) (env : Env ω) (k : String)
    (b : List UInt8)
    (hnew : NewGroup groups name cacheBytes (some getter) = Except.ok (g0, groups2))
    (hreach : Group.gets g0 keys env0 = some (g, env))
    (hk : k ≠ "") (hload : ∀ w, (getter.Get k w).1 = (b, none))
    (hcap : cacheBytes = 0 ∨ (k.utf8ByteSize : Int) + (b.length : Int) ≤ cacheBytes) :
    ∃ (g1 : Group ω) (env1 : Env ω) (g2 : Group ω),
      Group.Get g k env = some (({ b := b }, none), g1, env1) ∧
      Group.Get g1 k env1 = some (({ b := b }, none), g2, env1) ∧
      (env1 = env ∨ env1.calls = env.calls ++ [Call.loader k]) :=
  Settled_Get_twice getter cacheBytes k b hload g env hk hcap
    (Settled_gets getter cacheBytes k b hload keys g0 env0 g env
      (Settled_NewGroup groups groups2 name cacheBytes getter k { b := b } g0 hnew) hreach)

/-- Witness of C11, scenario S6: the group of `upperGetter` with capacity 64, asked
for `"abc"` first of all. -/
theorem local_load_then_cache_hit_witness :
    NewGroup [] "scores" 64 (some upperGetter) =
      Except.ok (upperGroup 64, [("scores", upperGroup 64)]) ∧
    ∃ (g1 : Group Nat) (env1 : Env Nat) (g2 : Group Nat),
      Group.Get (upperGroup 64) "abc" { world := 0, calls := [] } =
        some (({ b := [65, 66, 67] }, none), g1, env1) ∧
      Group.Get g1 "abc" env1 = some (({ b := [65, 66, 67] }, none), g2, env1) ∧
      (env1 = { world := 0, calls := [] } ∨ env1.calls = [] ++ [Call.loader "abc"]) :=
  ⟨rfl,
    local_load_then_cache_hit [] [("scores", upperGroup 64)] "scores" 64 upperGetter
      (upperGroup 64) [] { world := 0, calls := [] } (upperGroup 64) { world := 0, calls := [] }
      "abc" [65, 66, 67] rfl rfl (by decide) (fun _ => rfl) (Or.inr (by decide))⟩

/-- C12: for a group, with no call for the key in flight, and a key that is not
empty and misses the cache: when the picker selects a peer and that peer returns
the bytes `b` without error, `Get` returns a value with the bytes `b` and no
error; the interface calls it makes are the one of the picker and the one of the
peer, none of the loader; `mainCache` is as before and the key still misses. -/
theorem peer_answer_is_returned_and_not_cached {ω : Type} (g : Group ω) (key : String)
    (env : Env ω) (picker : PeerPicker ω) (peer : PeerGetter ω) (w1 w2 : ω) (b : List UInt8)
    (hk : key ≠ "") (hmiss : (g.mainCache.get key).1 = none)
    (hidle : (singleflight.inFlight g.loader).lookup key = none)
    (hp : g.peers = some picker) (hpick : picker.PickPeer key env.world = (some peer, w1))
    (hget : peer.Get g.name key w1 = ((b, none), w2)) :
    ∃ (g2 : Group ω) (env2 : Env ω),
      Group.Get g key env = some (({ b := b }, none), g2, env2) ∧
      g2.mainCache = g.mainCache ∧ (g2.mainCache.get key).1 = none ∧
      env2.calls = env.calls ++ [Call.pickPeer key, Call.peerGet g.name key] ∧
      env2.world = w2 := by
  refine ⟨{ g with loader := { m := some (singleflight.inFlight g.loader) } },
    { world := w2, calls := env.calls ++ [Call.pickPeer key, Call.peerGet g.name key] },
    ?_, rfl, hmiss, rfl, rfl⟩
  rw [Get_miss g key env hk hmiss, load_idle g key env hidle]
  simp only [Group.loadOnce, hp, hpick, Group.getFromPeer, hget, Option.map_some', loadResult,
    List.append_assoc, List.singleton_append]

/-- Witness of C12: `upperGroup` with `answeringPicker` registered, asked for `"abc"`. -/
theorem peer_answer_is_returned_and_not_cached_witness :
    ∃ (g2 : Group Nat) (env2 : Env Nat),
      Group.Get { upperGroup 64 with peers := some answeringPicker } "abc"
        { world := 0, calls := [] } = some (({ b := [1, 2, 3] }, none), g2, env2) ∧
      g2.mainCache = (upperGroup 64).mainCache ∧ (g2.mainCache.get "abc").1 = none ∧
      env2.calls = [] ++ [Call.pickPeer "abc", Call.peerGet "scores" "abc"] ∧
      env2.world = 0 :=
  peer_answer_is_returned_and_not_cached { upperGroup 64 with peers := some answeringPicker }
    "abc" { world := 0, calls := [] } answeringPicker answeringPeer 0 0 [1, 2, 3]
    (by decide) (by rfl) (by rfl) (by rfl) (by rfl) (by rfl)

/-- C13: for a group, with no call for the key in flight, and a key that is not
empty and misses the cache: when no picker is registered, or the picker finds no
peer, or the selected peer returns an error (`LoadsLocally`), the value, the
error, the cache and the environment `Get` ends with are those `getLocally` ends
with, and `Get` returns exactly when `getLocally` does. The error returned is the
error of the loader, not that of the peer. -/
theorem peer_failure_falls_back_to_local_load {ω : Type} (g : Group ω) (key : String)
    (env envL : Env ω) (hk : key ≠ "") (hmiss : (g.mainCache.get key).1 = none)
    (hidle : (singleflight.inFlight g.loader).lookup key = none)
    (h : Group.LoadsLocally g key env envL) :
    (Group.Get g key env).map (fun r => (r.1, r.2.1.mainCache, r.2.2)) =
      g.getLocally key (g.mainCache, envL) ∧
    ∀ r, Group.Get g key env = some r → r.1.2 = (g.getter.Get key envL.world).1.2 := by
  rw [Get_of_LoadsLocally g key env envL hk hmiss hidle h]
  constructor
  · cases g.getLocally key (g.mainCache, envL) <;> rfl
  · intro r hr
    cases hl : g.getLocally key (g.mainCache, envL) with
    | none => rw [hl] at hr; cases hr
    | some p =>
      rw [hl] at hr
      simp only [Option.map_some', Option.some.injEq] at hr
      rw [← hr]
      exact getLocally_err g key _ p hl

/-- Witness of C13: `upperGroup` with `failingPicker` registered, asked for `"abc"`:
the peer fails and the loader answers. -/
theorem peer_failure_falls_back_to_local_load_witness :
    (Group.Get { upperGroup 64 with peers := some failingPicker } "abc"
        { world := 0, calls := [] }).map (fun r => (r.1, r.2.1.mainCache, r.2.2)) =
      Group.getLocally { upperGroup 64 with peers := some failingPicker } "abc"
        ((upperGroup 64).mainCache,
          { world := 0, calls := [] ++ [Call.pickPeer "abc", Call.peerGet "scores" "abc"] }) ∧
    (Group.Get { upperGroup 64 with peers := some failingPicker } "abc"
        { world := 0, calls := [] }).map (fun r => r.1) = some ({ b := [65, 66, 67] }, none) :=
  ⟨(peer_failure_falls_back_to_local_load { upperGroup 64 with peers := some failingPicker }
      "abc" { world := 0, calls := [] }
      { world := 0, calls := [] ++ [Call.pickPeer "abc", Call.peerGet "scores" "abc"] }
      (by decide) (by rfl) (by rfl)
      (Group.LoadsLocally.peerError failingPicker failingPeer 0 0 [] "server returned: 500"
        rfl rfl rfl)).1,
    by rfl⟩

/-- C14: for a group, with no call for the key in flight, and a key that is not
empty, misses the cache and is loaded locally: when the loader returns the error
`e`, `Get` returns the error `e`, `mainCache` is as before and the key still
misses. -/
theorem loader_error_is_returned_and_nothing_cached {ω : Type} (g : Group ω) (key : String)
    (env envL : Env ω) (e : String) (hk : key ≠ "") (hmiss : (g.mainCache.get key).1 = none)
    (hidle : (singleflight.inFlight g.loader).lookup key = none)
    (h : Group.LoadsLocally g key env envL)
    (herr : (g.getter.Get key envL.world).1.2 = some e) :
    ∃ (v : ByteView) (g2 : Group ω) (env2 : Env ω),
      Group.Get g key env = some ((v, some e), g2, env2) ∧
      g2.mainCache = g.mainCache ∧ (g2.mainCache.get key).1 = none ∧
      env2.calls = envL.calls ++ [Call.loader key] := by
  refine ⟨{ b := [] }, { g with loader := { m := some (singleflight.inFlight g.loader) } },
    { world := (g.getter.Get key envL.world).2, calls := envL.calls ++ [Call.loader key] },
    ?_, rfl, hmiss, rfl⟩
  rw [Get_of_LoadsLocally g key env envL hk hmiss hidle h,
    getLocally_of_error g key (g.mainCache, envL) e herr]
  rfl

/-- Witness of C14: `upperGroup`, with no picker, asked for the key `"bad"`. -/
theorem loader_error_is_returned_and_nothing_cached_witness :
    ∃ (v : ByteView) (g2 : Group Nat) (env2 : Env Nat),
      Group.Get (upperGroup 64) "bad" { world := 0, calls := [] } =
        some ((v, some "no such key"), g2, env2) ∧
      g2.mainCache = (upperGroup 64).mainCache ∧ (g2.mainCache.get "bad").1 = none ∧
      env2.calls = [] ++ [Call.loader "bad"] :=
  loader_error_is_returned_and_nothing_cached (upperGroup 64) "bad" { world := 0, calls := [] }
    { world := 0, calls := [] } "no such key" (by decide) (by rfl) (by rfl)
    (Group.LoadsLocally.noPicker rfl) (by rfl)

/-- C15: on a group with no picker registered, `RegisterPeers` with a picker
installs it and changes nothing else; every further call of `RegisterPeers` with
a picker panics, and the group, with the picker installed first, stays as it
is. -/
theorem register_peers_only_once {ω : Type} (g : Group ω) (p1 p2 : PeerPicker ω)
    (h : g.peers = none) :
    g.RegisterPeers (some p1) = Except.ok { g with peers := some p1 } ∧
    ({ g with peers := some p1 } : Group ω).peers = some p1 ∧
    ({ g with peers := some p1 } : Group ω).RegisterPeers (some p2) =
      Except.error "RegisterPeerPicker called more than once" := by
  refine ⟨?_, rfl, ?_⟩
  · simp [Group.RegisterPeers, h]
  · simp [Group.RegisterPeers]

/-- Witness of C15: `upperGroup`, then `answeringPicker`, then `failingPicker`. -/
theorem register_peers_only_once_witness :
    (upperGroup 64).RegisterPeers (some answeringPicker) =
      Except.ok { upperGroup 64 with peers := some answeringPicker } ∧
    ({ upperGroup 64 with peers := some answeringPicker } : Group Nat).peers =
      some answeringPicker ∧
    ({ upperGroup 64 with peers := some answeringPicker } : Group Nat).RegisterPeers
      (some failingPicker) = Except.error "RegisterPeerPicker called more than once" :=
  register_peers_only_once (upperGroup 64) answeringPicker failingPicker rfl

/-- C18, what the code does: for a request whose path is the base path, a group
name, a `/` and a key that is not empty, with no group of that name in the
registry, `ServeHTTP` writes the 404 error and then goes on to call `Get` on the
`nil` group, where the handler panics. -/
theorem serve_unknown_group_goes_on_to_get {ω : Type} (p : HTTPPool)
    (groups : List (String × Group ω)) (groupName key : String) (env : Env ω)
    (hslash : '/' ∉ groupName.data) (hno : GetGroup groups groupName = none)
    (hkey : key ≠ "") :
    p.ServeHTTP groups (p.basePath ++ groupName ++ "/" ++ key) env =
      some { writer := [WriterCall.error ("no such group:" ++ groupName) 404],
             reads := [(groupName, key)],
             panic := some "runtime error: invalid memory address or nil pointer dereference",
             groups := groups, env := env } := by
  obtain ⟨h1, h2⟩ := split_request_path p.basePath groupName key hslash
  simp only [HTTPPool.ServeHTTP, h1, h2, hno, Group.GetPtr, if_neg hkey]
  rfl

/-- The request `/_zhongcache/scores/Tom` on a pool with an empty registry: the 404
error is written, `Get("Tom")` is called on the `nil` group and the handler
panics. The request `/_zhongcache/scores`, which has no key segment, is answered
with the 400 error and nothing more. -/
theorem serve_unknown_group_goes_on_to_get_witness :
    (NewHTTPPool "http://localhost:8001").ServeHTTP ([] : List (String × Group Nat))
        ((NewHTTPPool "http://localhost:8001").basePath ++ "scores" ++ "/" ++ "Tom")
        { world := 0, calls := [] } =
      some { writer := [WriterCall.error ("no such group:" ++ "scores") 404],
             reads := [("scores", "Tom")],
             panic := some "runtime error: invalid memory address or nil pointer dereference",
             groups := [], env := { world := 0, calls := [] } } ∧
    ((NewHTTPPool "http://localhost:8001").ServeHTTP ([] : List (String × Group Nat))
        "/_zhongcache/scores" { world := 0, calls := [] }).map
      (fun s => (s.writer, s.reads, s.panic)) =
      some ([WriterCall.error "bad request" 400], [], none) :=
  ⟨serve_unknown_group_goes_on_to_get (NewHTTPPool "http://localhost:8001") [] "scores" "Tom"
      { world := 0, calls := [] } (by decide) rfl (by decide),
    by decide⟩

end zhongcache

namespace singleflight

/-- C17: on a single-flight group with no call for `key` in flight, `Do(key, fn)`
runs `fn` once (the state `fn` acts on is the state after one run of it) and
returns the value and the error of `fn`, whether the error is `nil` or not; when
it has returned, the map has no entry for `key` and its other entries are as
before, so that a further `Do(key, fn2)` runs `fn2` and returns its result. -/
theorem do_runs_fn_once_and_releases_key {α σ : Type} (g : Group α) (key : String)
    (fx fx2 : σ → Option ((α × Option String) × σ)) (s s2 : σ) (r : α × Option String)
    (hidle : (inFlight g).lookup key = none) (hfx : fx s = some (r, s2)) :
    ∃ g2 : Group α, Do g key fx s = some (r, g2, s2) ∧
      (inFlight g2).lookup key = none ∧ inFlight g2 = inFlight g ∧
      ∀ r3 s3, fx2 s2 = some (r3, s3) → Do g2 key fx2 s2 = some (r3, g2, s3) := by
  refine ⟨{ m := some (inFlight g) }, ?_, hidle, rfl, ?_⟩
  · rw [Do_idle g key fx s hidle, hfx]
    rfl
  · intro r3 s3 h3
    have hidle2 : (inFlight ({ m := some (inFlight g) } : Group α)).lookup key = none := hidle
    rw [Do_idle _ key fx2 s2 hidle2, h3]
    rfl

/-- Witness of C17: a call for `"other"` is in flight; `Do("x", fn)` with an `fn`
that counts its runs and fails, then `Do("x", fn2)` with an `fn2` that succeeds. -/
theorem do_runs_fn_once_and_releases_key_witness :
    ∃ g2 : Group Nat,
      Do { m := some [("other", { val := none, err := none })] } "x"
        (fun n : Nat => some ((0, some "boom"), n + 1)) 0 = some ((0, some "boom"), g2, 1) ∧
      (inFlight g2).lookup "x" = none ∧
      inFlight g2 = inFlight { m := some [("other", { val := none, err := none })] } ∧
      ∀ r3 s3, (fun n : Nat => some (((7 : Nat), (none : Option String)), n + 1)) 1 = some (r3, s3) →
        Do g2 "x" (fun n : Nat => some ((7, none), n + 1)) 1 = some (r3, g2, s3) :=
  do_runs_fn_once_and_releases_key { m := some [("other", { val := none, err := none })] } "x"
    (fun n : Nat => some ((0, some "boom"), n + 1))
    (fun n : Nat => some ((7, none), n + 1)) 0 1 (0, some "boom") (by rfl) rfl

end singleflight

/-! ## Further properties of the LRU engine -/

namespace lru

/-- C19 as stated fails: `usedBytes` is an `int64` and the sum wraps. On `New(10, nil)`
the entry `"a"` with a value whose `Len()` is the largest `int` has
`len(key) + value.Len() = 2^63 > 10`; yet after `Add` the cache holds it: `usedBytes`
has wrapped to `-2^63`, the loop has not run, `Len()` is `1` and `Get("a")` is a
hit. -/
theorem add_oversize_entry_kept_on_overflow :
    (0 : Int) < 10 ∧
    ((("a" : String).utf8ByteSize : Int) +
      Value.Len ({ size := 9223372036854775807 } : Sized) > 10) ∧
    Add (New 10 none) "a" ({ size := 9223372036854775807 } : Sized) () =
      some (hugeCache, ()) ∧
    Len hugeCache = 1 ∧ hugeCache.usedBytes = -9223372036854775808 ∧
    (Get hugeCache "a").1 = some { size := 9223372036854775807 } :=
  ⟨by decide, by decide, by rfl, by rfl, by rfl, by rfl⟩

/-- C19, amended: on a state reached from `New` with `maxBytes > 0`, for values
whose `Len()` is never negative, `Add` of an entry with
`len(key) + value.Len() > maxBytes`, whose size and the sizes of the other
resident entries sum to less than `2^63`, returns and leaves the cache empty:
`Len()` is `0`, `usedBytes` is `0` and the index has no key. `OnEvicted` has been
called for every node, the node of the added entry last, and `Get(key)` is a
miss. -/
theorem add_oversize_entry_empties_cache {σ V : Type} [Value V] (maxBytes : Int)
    (cb : Option (String → V → σ → σ)) (s0 : σ) (ops : List (Op V)) (c : Cache σ V) (s : σ)
    (key : String) (val : V) (hm : 0 < maxBytes)
    (hr : run ops (New maxBytes cb) s0 = some (c, s))
    (hlen : ∀ v : V, 0 ≤ Value.Len v)
    (hbig : (key.utf8ByteSize : Int) + Value.Len val > maxBytes)
    (hfit : listBytes (c.dList.filter (fun x => x.entry.key != key)) +
      ((key.utf8ByteSize : Int) + Value.Len val) < 9223372036854775808) :
    ∃ (c2 : Cache σ V) (s2 : σ) (placed : Element V),
      Add c key val s = some (c2, s2) ∧ Len c2 = 0 ∧ c2.usedBytes = 0 ∧ c2.cMap = [] ∧
      placed.entry = { key := key, value := val } ∧
      s2 = (c.dList.filter (fun x => x.entry.key != key) ++ [placed]).foldl
        (fun t e => fire cb e t) s ∧
      Get c2 key = (none, c2) := by
  have hi0 : Inv (New maxBytes cb : Cache σ V) := Inv_New maxBytes cb
  obtain ⟨hi, h2, h3⟩ := Inv_run ops _ s0 c s hi0 hr
  have hmax : c.maxBytes = maxBytes := h2
  have hcb : c.OnEvicted = cb := h3
  obtain ⟨c2, s2, placed, ha, hi2, _, hp, hd, hs⟩ :=
    Add_oversize hi (by omega) key val s hlen (by simpa [entrySize, hmax] using hbig) hfit
  have hmap : c2.cMap = [] := by
    have := hi2.index
    rw [hd] at this
    exact List.Perm.eq_nil this
  refine ⟨c2, s2, placed, ha, by simp [Len, hd], ?_, hmap, hp, hcb ▸ hs, ?_⟩
  · rw [hi2.bytes, hd]
    simp [listBytes, wrap64_zero]
  · simp only [Get, hmap, List.lookup]

/-- Witness of C19 (amended): `soleEntryCache` has capacity 10; the entry
`("b", "1234567890")` takes 11 bytes. -/
theorem add_oversize_entry_empties_cache_witness :
    (0 : Int) < 10 ∧
    run [Op.add "a" "1234"] (New 10 none) () = some (soleEntryCache, ()) ∧
    ((("b" : String).utf8ByteSize : Int) + Value.Len ("1234567890" : String) > 10) ∧
    ∃ (c2 : Cache Unit String) (s2 : Unit) (placed : Element String),
      Add soleEntryCache "b" "1234567890" () = some (c2, s2) ∧ Len c2 = 0 ∧ c2.usedBytes = 0 ∧
      c2.cMap = [] ∧ placed.entry = { key := "b", value := "1234567890" } ∧
      s2 = (soleEntryCache.dList.filter (fun x => x.entry.key != "b") ++ [placed]).foldl
        (fun t e => fire none e t) () ∧
      Get c2 "b" = (none, c2) :=
  ⟨by decide, by rfl, by decide,
    add_oversize_entry_empties_cache 10 none () [Op.add "a" "1234"] soleEntryCache ()
      "b" "1234567890" (by decide) (by rfl) (fun v => Int.ofNat_nonneg v.utf8ByteSize)
      (by decide) (by decide)⟩

/-- C20: on a state reached from `New` with `maxBytes >= 0` by `Add`, `Get` and
`RemoveLRU` calls, `usedBytes` is `0` when the list is empty, and the loop of `Add`
ends after exactly `k` iterations (it ends with `k + 1` unrollings and not with
`k`), where `k` is at most the number of nodes in the list when the loop starts.
Every iteration removes a node: `k` nodes are gone when `Add` returns. -/
theorem add_loop_terminates {σ V : Type} [Value V] (maxBytes : Int)
    (cb : Option (String → V → σ → σ)) (s0 : σ) (ops : List (Op V)) (c : Cache σ V) (s : σ)
    (key : String) (val : V) (hm : 0 ≤ maxBytes)
    (hr : run ops (New maxBytes cb) s0 = some (c, s)) :
    (c.dList = [] → c.usedBytes = 0) ∧
    ∃ (k : Nat) (c2 : Cache σ V) (s2 : σ),
      k ≤ (addEntry c key val).dList.length ∧
      evictLoop (k + 1) (addEntry c key val) s = some (c2, s2) ∧
      evictLoop k (addEntry c key val) s = none ∧
      Add c key val s = some (c2, s2) ∧
      c2.dList = (addEntry c key val).dList.drop k ∧
      Len c2 + k = (addEntry c key val).dList.length ∧
      (c2.dList = [] → c2.usedBytes = 0) := by
  have hi0 : Inv (New maxBytes cb : Cache σ V) := Inv_New maxBytes cb
  obtain ⟨hi, h2, _⟩ := Inv_run ops _ s0 c s hi0 hr
  have hmax : c.maxBytes = maxBytes := h2
  have hempty : ∀ {x : Cache σ V}, Inv x → x.dList = [] → x.usedBytes = 0 := by
    intro x hx hnil
    rw [hx.bytes, hnil]
    simp [listBytes, wrap64_zero]
  refine ⟨hempty hi, ?_⟩
  obtain ⟨⟨c2, s2⟩, ha⟩ := Add_some hi (by omega) key val s
  obtain ⟨hi2, _⟩ := Inv_Add hi key val s c2 s2 ha
  obtain ⟨k, hk, hd, h3, h4⟩ := evictLoop_iterations _ _ _ _ _ ha
  refine ⟨k, c2, s2, hk, h3, h4, ha, hd, ?_, hempty hi2⟩
  simp only [Len, hd, List.length_drop]
  omega

/-- Witness of C20: the last `Add` of `TestOnEvicted`, on `testCache`. -/
theorem add_loop_terminates_witness :
    (0 : Int) ≤ 20 ∧
    run [Op.add "key1" "value1", Op.add "key2" "value2", Op.add "key3" "value3"]
      (New 20 (some recordKey)) ([] : List String) = some (testCache, ["key1"]) ∧
    (testCache.dList = [] → testCache.usedBytes = 0) ∧
    ∃ (k : Nat) (c2 : Cache (List String) String) (s2 : List String),
      k ≤ (addEntry testCache "key4" "value4").dList.length ∧
      evictLoop (k + 1) (addEntry testCache "key4" "value4") ["key1"] = some (c2, s2) ∧
      evictLoop k (addEntry testCache "key4" "value4") ["key1"] = none ∧
      Add testCache "key4" "value4" ["key1"] = some (c2, s2) ∧
      c2.dList = (addEntry testCache "key4" "value4").dList.drop k ∧
      Len c2 + k = (addEntry testCache "key4" "value4").dList.length ∧
      (c2.dList = [] → c2.usedBytes = 0) :=
  ⟨by decide, by rfl,
    add_loop_terminates 20 (some recordKey) []
      [Op.add "key1" "value1", Op.add "key2" "value2", Op.add "key3" "value3"]
      testCache ["key1"] "key4" "value4" (by decide) (by rfl)⟩

end lru
